import Mathlib

/-!
Verification of the tag/placeholder preservation and restoration pipeline of
the muvluvgg-translation scripts (translate-values.js, fix-newlines.js,
remove-markers.js). Strings are modelled as `List Char`; the external
translation service is modelled as a function parameter or as an outcome
oracle. All definitions are translated from the JavaScript source.
-/

namespace MuvLuv

/-- JavaScript whitespace (the characters relevant to `trim` and `\s`). -/
def jsWhitespace (c : Char) : Bool :=
  c = ' ' || c = '\t' || c = '\n' || c = '\r' ||
  c = Char.ofNat 11 || c = Char.ofNat 12 || c = Char.ofNat 160 || c = Char.ofNat 0xFEFF

/-- Model of JavaScript String.prototype.trim. -/
def jsTrim (s : List Char) : List Char :=
  ((s.dropWhile jsWhitespace).reverse.dropWhile jsWhitespace).reverse

/-- ASCII lowercasing: the effect of the regex i flag on the ASCII patterns used. -/
def charLower (c : Char) : Char :=
  if 'A' ≤ c ∧ c ≤ 'Z' then Char.ofNat (c.toNat + 32) else c

def isAsciiDigit (c : Char) : Bool := '0' ≤ c && c ≤ '9'

def isAsciiLetter (c : Char) : Bool := ('a' ≤ c && c ≤ 'z') || ('A' ≤ c && c ≤ 'Z')

def isAsciiAlnum (c : Char) : Bool := isAsciiLetter c || isAsciiDigit c

/-- The character class [a-zA-Z0-9%] used by the spacing checks of restoreTags. -/
def isTagAdjacent (c : Char) : Bool := isAsciiAlnum c || c = '%'

/-- The regex word-character class [A-Za-z0-9_], deciding \b. -/
def isWordChar (c : Char) : Bool := isAsciiAlnum c || c = '_'

/-- Case-insensitive "starts with", for regexes carrying the i flag. -/
def startsWithCI (pat s : List Char) : Bool :=
  (pat.map charLower).isPrefixOf (s.map charLower)

/-- Fuel-driven digit expansion; the fuel only bounds the recursion depth. -/
def natDigitsF : Nat → Nat → List Char
  | 0, _ => []
  | fuel + 1, n =>
    if n < 10 then [Char.ofNat (48 + n)]
    else natDigitsF fuel (n / 10) ++ [Char.ofNat (48 + n % 10)]

/-- The decimal digit string of a natural number (JS template `${n}`). -/
def natDigits (n : Nat) : List Char := natDigitsF (n + 1) n

/-- parseInt on a digit string. -/
def natVal (ds : List Char) : Nat :=
  ds.foldl (fun a c => a * 10 + (c.toNat - 48)) 0

/-- `p` occurs in `s` starting at position `i`. -/
def occursAt (p s : List Char) (i : Nat) : Prop := p <+: s.drop i

instance (p s : List Char) (i : Nat) : Decidable (occursAt p s i) :=
  inferInstanceAs (Decidable (p <+: s.drop i))

/-- Boolean substring test (String.prototype.includes / regex literal test). -/
def hasSubstr (p : List Char) : List Char → Bool
  | [] => p.isEmpty
  | c :: rest => p.isPrefixOf (c :: rest) || hasSubstr p rest

/-!
Generic model of JavaScript `String.replace` with a global regex and a
replacement callback. The matcher `m pos suffix` decides whether a match
starts at absolute position `pos` (`suffix` is the rest of the subject from
that position) and, if so, returns the match length together with the
replacement text. Scanning is leftmost and non-overlapping and resumes
after the end of each match, as the JS engine does.
-/
def rewriteByMatcherF (m : Nat → List Char → Option (Nat × List Char)) :
    Nat → Nat → List Char → List Char
  | _, _, [] => []
  | 0, _, s => s
  | fuel + 1, pos, c :: rest =>
    match m pos (c :: rest) with
    | some (len, repl) =>
        repl ++ rewriteByMatcherF m fuel (pos + max len 1) ((c :: rest).drop (max len 1))
    | none => c :: rewriteByMatcherF m fuel (pos + 1) rest

def rewriteByMatcher (m : Nat → List Char → Option (Nat × List Char))
    (pos : Nat) (s : List Char) : List Char :=
  rewriteByMatcherF m s.length pos s

/-- Replace every occurrence of a literal pattern by a constant string. -/
def replaceAllConst (s pat repl : List Char) : List Char :=
  rewriteByMatcher
    (fun _ suffix => if pat.isPrefixOf suffix then some (pat.length, repl) else none) 0 s

/-- Case-insensitive literal replacement (regex of an escaped literal with gi). -/
def replaceCI (needle repl s : List Char) : List Char :=
  rewriteByMatcher
    (fun _ suffix => if startsWithCI needle suffix then some (needle.length, repl) else none) 0 s

/-! ## Tag extraction (extractAndPreserveTags, translate-values.js lines 13-52) -/

/-- Split at the first fullwidth closing bracket 〉: the characters before it
and the characters after it; none when no closing bracket exists. -/
def splitAtClose : List Char → Option (List Char × List Char)
  | [] => none
  | c :: cs =>
    if c = '〉' then some ([], cs)
    else
      match splitAtClose cs with
      | some (a, b) => some (c :: a, b)
      | none => none

/-- The match list of the exec loop over the regex 〈[^〉]+〉: each entry is the
full tag text (brackets included) with its start index. A 〈 that is not
followed by a non-empty 〉-closed content yields no match at that position. -/
def findMatchesF : Nat → List Char → Nat → List (List Char × Nat)
  | _, [], _ => []
  | 0, _, _ => []
  | fuel + 1, c :: rest, pos =>
    if c = '〈' then
      match splitAtClose rest with
      | some (content, after) =>
          if content = [] then findMatchesF fuel rest (pos + 1)
          else ('〈' :: (content ++ ['〉']), pos) :: findMatchesF fuel after (pos + content.length + 2)
      | none => findMatchesF fuel rest (pos + 1)
    else findMatchesF fuel rest (pos + 1)

def findMatches (s : List Char) (pos : Nat) : List (List Char × Nat) :=
  findMatchesF s.length s pos

/-- The placeholder string ___TAG<n>___. -/
def phStr (n : Nat) : List Char := "___TAG".toList ++ natDigits n ++ "___".toList

/-- text.substring(0, i) + r + text.substring(i + len). -/
def listSplice (s : List Char) (i len : Nat) (r : List Char) : List Char :=
  s.take i ++ r ++ s.drop (i + len)

/-- extractAndPreserveTags: find all fullwidth bracket tags, then walk the
match list backwards while tagIndex counts up from 0, replacing each tag by
the placeholder ___TAG<tagIndex>___ and recording (placeholder, tag) in the
map in that insertion order. -/
def extractStep (acc : List Char × List (List Char × List Char) × Nat)
    (mt : List Char × Nat) : List Char × List (List Char × List Char) × Nat :=
  (listSplice acc.1 mt.2 mt.1.length (phStr acc.2.2),
   acc.2.1 ++ [(phStr acc.2.2, mt.1)], acc.2.2 + 1)

def extractAndPreserveTags (text : List Char) :
    List Char × List (List Char × List Char) :=
  let r := (findMatches text 0).reverse.foldl extractStep (text, [], 0)
  (r.1, r.2.1)

/-- Structured decomposition of a string by the 〈[^〉]+〉 scan: the list of
(literal-before, full tag) pairs in order, plus the trailing literal. -/
def consLit (c : Char) : List (List Char × List Char) × List Char →
    List (List Char × List Char) × List Char
  | ([], trail) => ([], c :: trail)
  | ((lit, tag) :: ps, trail) => ((c :: lit, tag) :: ps, trail)

def scanDecompF : Nat → List Char → List (List Char × List Char) × List Char
  | _, [] => ([], [])
  | 0, s => ([], s)
  | fuel + 1, c :: rest =>
    if c = '〈' then
      match splitAtClose rest with
      | some (content, after) =>
          if content = [] then consLit c (scanDecompF fuel rest)
          else
            (([], '〈' :: (content ++ ['〉'])) :: (scanDecompF fuel after).1,
             (scanDecompF fuel after).2)
      | none => consLit c (scanDecompF fuel rest)
    else consLit c (scanDecompF fuel rest)

def scanDecomp (s : List Char) : List (List Char × List Char) × List Char :=
  scanDecompF s.length s

/-- Reassemble a scan decomposition: literals and tags in order, then trail. -/
def asmRaw : List (List Char × List Char) → List Char → List Char
  | [], trail => trail
  | (lit, tag) :: ps, trail => lit ++ tag ++ asmRaw ps trail

/-- Specification-side description of the processed text: the pair at distance
d from the end of the list carries placeholder index base + d. -/
def asmPh (base : Nat) : List (List Char × List Char) → List Char → List Char
  | [], trail => trail
  | (lit, _) :: ps, trail => lit ++ phStr (base + ps.length) ++ asmPh base ps trail

/-- Specification-side description of the tag map: insertion order is from the
rightmost tag (index base) to the leftmost (highest index). -/
def tmSpec (base : Nat) : List (List Char × List Char) → List (List Char × List Char)
  | [] => []
  | (_, tag) :: ps => tmSpec base ps ++ [(phStr (base + ps.length), tag)]

/-- Total length of the literal and tag segments of a decomposition. -/
def sumLen : List (List Char × List Char) → Nat
  | [] => 0
  | (lit, tag) :: ps => lit.length + tag.length + sumLen ps

/-- Specification-side description of the regex match list: each tag with its
start index, positions accumulated from pos. -/
def matchList : List (List Char × List Char) → Nat → List (List Char × Nat)
  | [], _ => []
  | (lit, tag) :: ps, pos => (tag, pos + lit.length) :: matchList ps (pos + lit.length + tag.length)

/-- The bracket spans of s are balanced: literals between and after the scanned
spans contain no fullwidth bracket characters. -/
def balancedTags (s : List Char) : Bool :=
  (scanDecomp s).1.all (fun pr => pr.1.all (fun c => c ≠ '〈' && c ≠ '〉')) &&
  (scanDecomp s).2.all (fun c => c ≠ '〈' && c ≠ '〉')

/-! ## Tag restoration (restoreTags, translate-values.js lines 58-173) -/

/-- Parse ^___TAG(\d+)___$ : the digit characters when the string has exactly
that shape, none otherwise. -/
def parseTagToken (p : List Char) : Option (List Char) :=
  if "___TAG".toList.isPrefixOf p then
    let rest := p.drop 6
    let ds := rest.takeWhile isAsciiDigit
    if ds ≠ [] ∧ rest.drop ds.length = "___".toList then some ds else none
  else none

/-- The sort key of a tag-map entry: the first /TAG(\d+)/ occurrence parsed as
a number, 0 when there is none (case sensitive, as in the source). -/
def tagKeyScan : List Char → Option Nat
  | [] => none
  | c :: rest =>
    if "TAG".toList.isPrefixOf (c :: rest) ∧
       ((c :: rest).drop 3).takeWhile isAsciiDigit ≠ [] then
      some (natVal (((c :: rest).drop 3).takeWhile isAsciiDigit))
    else tagKeyScan rest

def tagSortKey (p : List Char) : Nat := (tagKeyScan p).getD 0

/-- Stable insertion into a list sorted by descending key. -/
def insertDescBy (key : α → Nat) (x : α) : List α → List α
  | [] => [x]
  | y :: ys => if key y < key x then x :: y :: ys else y :: insertDescBy key x ys

/-- Stable sort by descending key (the comparator (a, b) => bIndex - aIndex). -/
def sortDescBy (key : α → Nat) (l : List α) : List α :=
  l.foldl (fun acc x => insertDescBy key x acc) []

/-- needsSpaceBefore of restoreTags: the subject character left of position i
exists, is in [a-zA-Z0-9%], and is not whitespace. -/
def needsSpaceBefore (s : List Char) (i : Nat) : Bool :=
  if i = 0 then false
  else
    match s[i - 1]? with
    | some c => isTagAdjacent c && !(jsWhitespace c)
    | none => false

/-- needsSpaceAfter of restoreTags: the subject character at position j exists,
is in [a-zA-Z0-9%], and is not whitespace. -/
def needsSpaceAfter (s : List Char) (j : Nat) : Bool :=
  match s[j]? with
  | some c => isTagAdjacent c && !(jsWhitespace c)
  | none => false

/-- The exact-match path: replace every literal occurrence of the placeholder,
adding a space on a side when the adjacent subject character needs one. -/
def replaceExactWithSpacing (s ph tag : List Char) : List Char :=
  rewriteByMatcher
    (fun pos suffix =>
      if ph.isPrefixOf suffix then
        some (ph.length,
          (if needsSpaceBefore s pos then [' '] else []) ++ tag ++
          (if needsSpaceAfter s (pos + ph.length) then [' '] else []))
      else none) 0 s

/-- The leading class of the flexible pattern: [^_a-zA-Z0-9%]. -/
def fuzzyLeadOk (c : Char) : Bool :=
  !(c = '_' || isAsciiLetter c || isAsciiDigit c || c = '%')

/-- The negative lookahead class (?![a-zA-Z0-9%<]). -/
def fuzzyLookaheadBad (c : Char) : Bool :=
  isAsciiLetter c || isAsciiDigit c || c = '%' || c = '<'

/-- Match the core `_+[Tt][Aa][Gg]<digits>_+(?![a-zA-Z0-9%<])` at the head of
l, returning the number of characters consumed. The trailing `_+` is greedy
and gives back one underscore when the lookahead would otherwise fail. -/
def fuzzyCore (digits : List Char) (l : List Char) : Option Nat :=
  let r1 := (l.takeWhile (fun c => c = '_')).length
  if r1 = 0 then none
  else
    match l.drop r1 with
    | t :: a :: g :: rest =>
      if charLower t = 't' ∧ charLower a = 'a' ∧ charLower g = 'g' then
        if digits.isPrefixOf rest then
          let l2 := rest.drop digits.length
          let r2 := (l2.takeWhile (fun c => c = '_')).length
          if r2 = 0 then none
          else
            match l2[r2]? with
            | none => some (r1 + 3 + digits.length + r2)
            | some c =>
                if fuzzyLookaheadBad c then
                  if 2 ≤ r2 then some (r1 + 3 + digits.length + (r2 - 1)) else none
                else some (r1 + 3 + digits.length + r2)
        else none
      else none
    | _ => none

/-- Match the full flexible pattern at absolute position pos of the subject
(suffix is the subject from that position): the ^ alternative applies only at
position 0, otherwise one [^_a-zA-Z0-9%] character is consumed first. -/
def fuzzyMatchAt (digits : List Char) (pos : Nat) (suffix : List Char) : Option Nat :=
  match (if pos = 0 then fuzzyCore digits suffix else none) with
  | some n => some n
  | none =>
    match suffix with
    | c :: rest => if fuzzyLeadOk c then (fuzzyCore digits rest).map (· + 1) else none
    | [] => none

/-- The exec loop over the flexible pattern: all matches as (index, length),
scanning left to right and resuming after each match. -/
def fuzzyExecF (s digits : List Char) : Nat → Nat → List (Nat × Nat)
  | 0, _ => []
  | fuel + 1, pos =>
    if pos < s.length then
      match fuzzyMatchAt digits pos (s.drop pos) with
      | some len => (pos, len) :: fuzzyExecF s digits fuel (pos + max len 1)
      | none => fuzzyExecF s digits fuel (pos + 1)
    else []

def fuzzyExec (s digits : List Char) (pos : Nat) : List (Nat × Nat) :=
  fuzzyExecF s digits (s.length + 1 - pos) pos

def usernameGuardStr : List Char := "USERNAME_PLACEHOLDER".toList

/-- The /<[^>]*(?:color|material)/i test: scan after a '<' for color or
material before any '>'. -/
def colorMaterialScan : List Char → Bool
  | [] => false
  | c :: rest =>
    if startsWithCI "color".toList (c :: rest) || startsWithCI "material".toList (c :: rest) then
      true
    else if c = '>' then false
    else colorMaterialScan rest

def colorMaterialFrom : List Char → Bool
  | [] => false
  | c :: rest => (c = '<' && colorMaterialScan rest) || colorMaterialFrom rest

/-- The context-window guard of the fuzzy path: the 30-character window around
the match must contain neither USERNAME_PLACEHOLDER nor a color/material tag. -/
def fuzzyContextOk (s : List Char) (idx len : Nat) : Bool :=
  let context := ((s.take (min s.length (idx + len + 30))).drop (idx - 30))
  !(hasSubstr usernameGuardStr context) && !(colorMaterialFrom context)

def collectFuzzy (s digits : List Char) : List (Nat × Nat) :=
  (fuzzyExec s digits 0).filter (fun m => fuzzyContextOk s m.1 m.2)

/-- One splice of the fuzzy path. The source reads match[1] from a pattern
with no capturing group, so beforeChar is always empty and the consumed
leading character is dropped; spacing is decided against the current buffer. -/
def fuzzySpliceStep (tag : List Char) (s : List Char) (m : Nat × Nat) : List Char :=
  listSplice s m.1 m.2
    ((if needsSpaceBefore s m.1 then [' '] else []) ++ tag ++
     (if needsSpaceAfter s (m.1 + m.2) then [' '] else []))

/-- The fuzzy path: splice the collected matches back to front. -/
def fuzzyRestore (s tag : List Char) (ms : List (Nat × Nat)) : List Char :=
  ms.reverse.foldl (fuzzySpliceStep tag) s

/-- Processing of one sorted tag-map entry inside restoreTags. -/
def restoreEntry (s : List Char) (e : List Char × List Char) : List Char :=
  match parseTagToken e.1 with
  | some digits =>
      if hasSubstr e.1 s then replaceExactWithSpacing s e.1 e.2
      else fuzzyRestore s e.2 (collectFuzzy s digits)
  | none => replaceAllConst s e.1 e.2

/-- restoreTags: sort the tag map by descending index, then restore each entry
by exact match when possible, the flexible pattern otherwise. -/
def restoreTags (text : List Char) (tagMap : List (List Char × List Char)) : List Char :=
  (sortDescBy (fun e => tagSortKey e.1) tagMap).foldl restoreEntry text

/-- Extraction followed immediately by restoration, the translation stage in
between being the identity. -/
def roundTrip (s : List Char) : List Char :=
  restoreTags (extractAndPreserveTags s).1 (extractAndPreserveTags s).2

/-! ## Username-marker handling and post-processing (translateObjectValues) -/

def canonicalUser : List Char := "%usernameusernameuserna%".toList

def realNamePH : List Char := "Xeonis".toList

/-- Match /%user[^%]*na%/i at the head of suffix: "%user", then the maximal
run of non-% characters which must end in "na", then the closing %. -/
def userVariantMatchAt (suffix : List Char) : Option Nat :=
  if startsWithCI "%user".toList suffix then
    let rest := suffix.drop 5
    let t := rest.takeWhile (fun c => c ≠ '%')
    if rest[t.length]? = some '%' ∧ 2 ≤ t.length ∧
       charLower (t.getD (t.length - 2) ' ') = 'n' ∧
       charLower (t.getD (t.length - 1) ' ') = 'a' then
      some (5 + t.length + 1)
    else none
  else none

/-- Replace every /%user[^%]*na%/gi match by repl. -/
def replaceUserVariants (repl : List Char) (s : List Char) : List Char :=
  rewriteByMatcher (fun _ suffix => (userVariantMatchAt suffix).map (fun n => (n, repl))) 0 s

/-- key.match(usernamePattern) finds at least one match. -/
def hasUserVariant (s : List Char) : Bool :=
  (List.range s.length).any (fun i => (userVariantMatchAt (s.drop i)).isSome)

/-- Match /<br\s*\/?>/i at the head of suffix. -/
def matchBrAt (suffix : List Char) : Option Nat :=
  match suffix with
  | '<' :: c1 :: c2 :: rest =>
    if charLower c1 = 'b' ∧ charLower c2 = 'r' then
      let ws := (rest.takeWhile jsWhitespace).length
      match rest.drop ws with
      | '/' :: '>' :: _ => some (3 + ws + 2)
      | '>' :: _ => some (3 + ws + 1)
      | _ => none
    else none
  | _ => none

def stripBr (s : List Char) : List Char :=
  rewriteByMatcher (fun _ suffix => (matchBrAt suffix).map (fun n => (n, []))) 0 s

def stripBOpen (s : List Char) : List Char :=
  rewriteByMatcher
    (fun _ suffix => if startsWithCI "<b>".toList suffix then some (3, []) else none) 0 s

def stripBClose (s : List Char) : List Char :=
  rewriteByMatcher
    (fun _ suffix => if startsWithCI "</b>".toList suffix then some (4, []) else none) 0 s

/-- The artifact cleanup after a translation call: drop br and bold tags, trim. -/
def cleanupArtifacts (s : List Char) : List Char :=
  jsTrim (stripBClose (stripBOpen (stripBr s)))

/-- The 27 recognized mutations of the protected real-name word. -/
def nameVariations : List (List Char) :=
  ["Xeonis", "xeonis", "XEONIS", "Xeois", "xeois", "XEOIS",
   "Xeons", "xeons", "XEONS", "Xeonys", "xeonys", "XEONYS",
   "Xeony", "xeony", "XEONY", "Xeoni", "xeoni", "XEONI",
   "Xeonyis", "xeonyis", "XEONYIS", "Xeonsis", "xeonsis", "XEONSIS",
   "Xeon", "xeon", "XEON"].map String.toList

/-- The shorter list used by the second single-line restoration pass. -/
def nameVariationsShort : List (List Char) :=
  ["Xeonis", "xeonis", "XEONIS", "Xeois", "xeois", "XEOIS",
   "Xeons", "xeons", "XEONS"].map String.toList

def applyNameVariations (s : List Char) : List Char :=
  nameVariations.foldl (fun acc name => replaceCI name canonicalUser acc) s

def applyNameVariationsShort (s : List Char) : List Char :=
  nameVariationsShort.foldl (fun acc name => replaceCI name canonicalUser acc) s

/-- The class [_\s-] of the old-technical-placeholder regex. -/
def sepClass (c : Char) : Bool := c = '_' || jsWhitespace c || c = '-'

/-- Match /_+USERNAME[_\s-]*PLACEHOLDER[_\s-]*XYZ123[_\s-]*/i at the head. -/
def matchOldTechAt (suffix : List Char) : Option Nat :=
  let r1 := (suffix.takeWhile (fun c => c = '_')).length
  if r1 = 0 then none
  else
    let l1 := suffix.drop r1
    if startsWithCI "username".toList l1 then
      let l2 := l1.drop 8
      let s1 := (l2.takeWhile sepClass).length
      let l3 := l2.drop s1
      if startsWithCI "placeholder".toList l3 then
        let l4 := l3.drop 11
        let s2 := (l4.takeWhile sepClass).length
        let l5 := l4.drop s2
        if startsWithCI "xyz123".toList l5 then
          let l6 := l5.drop 6
          some (r1 + 8 + s1 + 11 + s2 + 6 + (l6.takeWhile sepClass).length)
        else none
      else none
    else none

def replaceOldTech (s : List Char) : List Char :=
  rewriteByMatcher (fun _ suffix => (matchOldTechAt suffix).map (fun n => (n, canonicalUser))) 0 s

def commonHonorifics : List (List Char) :=
  ["san", "kun", "chan", "sama", "senpai", "sensei", "dono"].map String.toList

/-- Match /(%usernameusernameuserna%)\s*([a-z]+)\b/i at the head of suffix and
compute the callback replacement: marker-honorific when the word is
recognized, the match itself otherwise. -/
def matchHonorificAt (suffix : List Char) : Option (Nat × List Char) :=
  if startsWithCI canonicalUser suffix then
    let l1 := suffix.drop 24
    let ws := (l1.takeWhile jsWhitespace).length
    let l2 := l1.drop ws
    let run := (l2.takeWhile isAsciiLetter).length
    let boundaryOk :=
      match l2[run]? with
      | some c => !(isWordChar c)
      | none => true
    if run = 0 ∨ boundaryOk = false then none
    else
      let n := 24 + ws + run
      if commonHonorifics.contains ((l2.take run).map charLower) then
        some (n, suffix.take 24 ++ '-' :: l2.take run)
      else some (n, suffix.take n)
  else none

def honorificPass (s : List Char) : List Char :=
  rewriteByMatcher (fun _ suffix => matchHonorificAt suffix) 0 s

/-- /([a-zA-Z0-9])(%usernameusernameuserna%)([a-zA-Z0-9])/g → "$1 $2 $3". -/
def spacingPass1 (s : List Char) : List Char :=
  rewriteByMatcher
    (fun _ suffix =>
      match suffix with
      | c :: rest =>
        if isAsciiAlnum c ∧ canonicalUser.isPrefixOf rest then
          match rest[24]? with
          | some d =>
              if isAsciiAlnum d then
                some (1 + 24 + 1, c :: ' ' :: (canonicalUser ++ [' ', d]))
              else none
          | none => none
        else none
      | [] => none) 0 s

/-- /([a-zA-Z0-9])(%usernameusernameuserna%)(?!-)/g → "$1 $2". -/
def spacingPass2 (s : List Char) : List Char :=
  rewriteByMatcher
    (fun _ suffix =>
      match suffix with
      | c :: rest =>
        if isAsciiAlnum c ∧ canonicalUser.isPrefixOf rest ∧ ¬ (rest[24]? = some '-') then
          some (1 + 24, c :: ' ' :: canonicalUser)
        else none
      | [] => none) 0 s

/-- /(?<!-)(%usernameusernameuserna%)([a-zA-Z0-9])/g → "$1 $2"; the lookbehind
inspects the unmodified subject string. -/
def spacingPass3 (s : List Char) : List Char :=
  rewriteByMatcher
    (fun pos suffix =>
      if canonicalUser.isPrefixOf suffix ∧ (pos = 0 ∨ ¬ (s[pos - 1]? = some '-')) then
        match suffix[24]? with
        | some d => if isAsciiAlnum d then some (24 + 1, canonicalUser ++ [' ', d]) else none
        | none => none
      else none) 0 s

/-- Normalize curly apostrophes and quotes to ASCII (three chained single-
character-class replaces). -/
def quoteNormalize (s : List Char) : List Char :=
  ((s.map (fun c =>
      if c = Char.ofNat 0x2019 || c = Char.ofNat 0x2018 ||
         c = Char.ofNat 0x201B || c = Char.ofNat 0x201A then '\'' else c)).map
    (fun c =>
      if c = Char.ofNat 0x201C || c = Char.ofNat 0x201E || c = Char.ofNat 0x201F
      then '"' else c)).map
    (fun c => if c = Char.ofNat 0x201D || c = Char.ofNat 0x201C then '"' else c)

/-- The final normalization shared by both branches: collapse user variants to
the canonical marker, hyphenate honorifics, spacing fixes, quote fixes. -/
def finalNormalize (s : List Char) : List Char :=
  quoteNormalize (spacingPass3 (spacingPass2 (spacingPass1
    (honorificPass (replaceUserVariants canonicalUser s)))))

/-! ## Line segmenter (translate-values.js lines 321-373) -/

/-- The per-line body of the multiline loop: translate through f, strip
artifacts, restore name variations, catch old technical markers; blank lines
pass through as empty lines. -/
def processPart (f : List Char → List Char) (part : List Char) : List Char :=
  if jsTrim part ≠ [] then
    replaceOldTech (applyNameVariations (cleanupArtifacts (f part)))
  else []

/-- JavaScript text.split('\n'). -/
def splitNL : List Char → List (List Char)
  | [] => [[]]
  | c :: rest =>
    if c = '\n' then [] :: splitNL rest
    else
      match splitNL rest with
      | [] => [[c]]
      | p :: ps => (c :: p) :: ps

/-- JavaScript parts.join('\n'). -/
def joinNL : List (List Char) → List Char
  | [] => []
  | [p] => p
  | p :: q :: ps => p ++ '\n' :: joinNL (q :: ps)

/-- The Line Segmenter: split on newline, process each part, rejoin. -/
def segmentTranslate (f : List Char → List Char) (text : List Char) : List Char :=
  joinNL ((splitNL text).map (processPart f))

/-- The multiline post-join passes (lines 375-430). -/
def multilinePost (tagMap : List (List Char × List Char)) (s : List Char) : List Char :=
  finalNormalize (applyNameVariations (restoreTags (replaceOldTech (applyNameVariations s)) tagMap))

/-- The single-line branch (lines 431-507). -/
def singleLinePipe (f : List Char → List Char) (hasUsername : Bool)
    (tagMap : List (List Char × List Char)) (t : List Char) : List Char :=
  let a := cleanupArtifacts (f t)
  let b := if hasUsername then applyNameVariations a else a
  let c := replaceOldTech b
  let d := restoreTags c tagMap
  let e := if hasUsername then applyNameVariationsShort d else d
  finalNormalize e

/-- One string value through the whole pipeline of translateObjectValues
(lines 305-508), with the external translator modelled by f. -/
def translateString (f : List Char → List Char) (key : List Char) : List Char :=
  let ex := extractAndPreserveTags (replaceUserVariants realNamePH key)
  if '\n' ∈ ex.1 then multilinePost ex.2 (segmentTranslate f ex.1)
  else singleLinePipe f (hasUserVariant key) ex.2 ex.1

/-! ## translateWithSugoi retry model (lines 176-267 and fix-newlines.js 8-54) -/

/-- The observable outcome of one HTTP attempt: a transport error, a timeout,
a body that fails JSON.parse, or a parsed string / object result. -/
inductive CallOutcome where
  | transportError
  | timeout
  | badJson
  | jsonString (s : List Char)
  | jsonObject (s : List Char)
deriving DecidableEq

def CallOutcome.failing : CallOutcome → Bool
  | .transportError => true
  | .timeout => true
  | .badJson => true
  | _ => false

/-- The tryTranslation retry recursion: on a parsed result resolve it, on any
failure advance to the next format, then the next port, finally resolving the
original text. -/
def tryTranslation (text : List Char) (outcomes : Nat → Nat → CallOutcome)
    (numPorts numFormats : Nat) (portIndex formatIndex : Nat) : List Char :=
  if h : numPorts ≤ portIndex then text
  else
    match outcomes portIndex formatIndex with
    | .jsonString s => s
    | .jsonObject s => s
    | _ =>
        if h2 : formatIndex < numFormats - 1 then
          tryTranslation text outcomes numPorts numFormats portIndex (formatIndex + 1)
        else tryTranslation text outcomes numPorts numFormats (portIndex + 1) 0
termination_by (numPorts - portIndex, numFormats - formatIndex)
decreasing_by
  · apply Prod.Lex.right
    omega
  · apply Prod.Lex.left
    omega

/-- translateWithSugoi: the whitespace short-circuit plus the retry chain over
SUGOI_PORTS = [14366] and the single request format; the Bool records whether
any HTTP request was issued. -/
def translateWithSugoi (text : List Char) (outcomes : Nat → Nat → CallOutcome) :
    List Char × Bool :=
  if text = [] ∨ jsTrim text = [] then (text, false)
  else (tryTranslation text outcomes 1 1 0 0, true)

/-! ## JSON object traversal (translateObjectValues / processJsonFile) -/

inductive JValue where
  | str (s : List Char)
  | jbool (b : Bool)
  | num (n : Int)
  | null
  | arr (items : List JValue)
  | obj (fields : List (List Char × JValue))

mutual

/-- translateObjectValues (lines 270-524): arrays recurse into object items
and send string items straight to the translator; objects recurse into object
values and rewrite string-valued fields with the translated key. -/
def translateObjectValues (f : List Char → List Char) : JValue → JValue
  | .arr items => .arr (translateArrItems f items)
  | .obj fields => .obj (translateObjFields f fields)
  | v => v

def translateArrItems (f : List Char → List Char) : List JValue → List JValue
  | [] => []
  | item :: rest =>
    (match item with
     | .arr l => translateObjectValues f (.arr l)
     | .obj fs => translateObjectValues f (.obj fs)
     | .str s => .str (f s)
     | v => v) :: translateArrItems f rest

def translateObjFields (f : List Char → List Char) :
    List (List Char × JValue) → List (List Char × JValue)
  | [] => []
  | (k, v) :: rest =>
    (match v with
     | .arr l => (k, translateObjectValues f (.arr l))
     | .obj fs => (k, translateObjectValues f (.obj fs))
     | .str _ => (k, .str (translateString f k))
     | w => (k, w)) :: translateObjFields f rest

end

def markerKey : List Char := "__translated__".toList

/-- data['key'] on a parsed JSON value (undefined for non-objects). -/
def lookupField (v : JValue) (k : List Char) : Option JValue :=
  match v with
  | .obj fields => (fields.find? (fun kv => kv.1 == k)).map (·.2)
  | _ => none

/-- delete data['key']. -/
def removeField (v : JValue) (k : List Char) : JValue :=
  match v with
  | .obj fields => .obj (fields.filter (fun kv => !(kv.1 == k)))
  | w => w

/-- Top-level keys of a parsed JSON value. -/
def keysOf (v : JValue) : List (List Char) :=
  match v with
  | .obj fields => fields.map (·.1)
  | _ => []

structure ProcessOutcome where
  skipped : Bool
  recorded : Bool
  output : Option JValue

/-- The test data['__translated__'] === 'true' || data['__translated__'] === true. -/
def isTrueMarker (v : Option JValue) : Bool :=
  match v with
  | some (.str s) => s = "true".toList
  | some (.jbool b) => b
  | _ => false

/-- The decision logic of processJsonFile (lines 565-606) on an already-parsed
file that is not in the tracking set: skip-and-record when the legacy marker
equals the string "true" or the boolean true, otherwise delete the marker,
translate, write the result and record the file. -/
def processJsonFile (f : List Char → List Char) (data : JValue) : ProcessOutcome :=
  if isTrueMarker (lookupField data markerKey) then
    { skipped := true, recorded := true, output := none }
  else
    { skipped := false, recorded := true,
      output := some (translateObjectValues f (removeField data markerKey)) }

/-- removeMarker from remove-markers.js (lines 4-23): strip the marker field
and report whether the file changed. -/
def removeMarker (data : JValue) : JValue × Bool :=
  if (keysOf data).contains markerKey then (removeField data markerKey, true)
  else (data, false)

/-! ## Basic lemmas -/

theorem jsTrim_of_all_ws {s : List Char} (h : ∀ c ∈ s, jsWhitespace c = true) :
    jsTrim s = [] := by
  unfold jsTrim
  have h1 : s.dropWhile jsWhitespace = [] := List.dropWhile_eq_nil_iff.mpr h
  simp [h1]

theorem keysOf_translateObjFields (f : List Char → List Char) :
    ∀ fields : List (List Char × JValue),
      (translateObjFields f fields).map (·.1) = fields.map (·.1) := by
  intro fields
  induction fields with
  | nil => rfl
  | cons kv rest ih =>
      obtain ⟨k, v⟩ := kv
      cases v <;> simp [translateObjFields, ih]

theorem keysOf_translateObjectValues (f : List Char → List Char) (v : JValue) :
    keysOf (translateObjectValues f v) = keysOf v := by
  cases v <;> simp [translateObjectValues, keysOf, keysOf_translateObjFields]

theorem markerKey_not_mem_removeField (data : JValue) :
    markerKey ∉ keysOf (removeField data markerKey) := by
  intro hmem
  cases data with
  | obj fields =>
      simp only [removeField, keysOf, List.mem_map] at hmem
      obtain ⟨kv, hkv, hk⟩ := hmem
      rw [List.mem_filter] at hkv
      have h2 := hkv.2
      rw [hk] at h2
      simp at h2
  | str s => simp [removeField, keysOf] at hmem
  | jbool b => simp [removeField, keysOf] at hmem
  | num n => simp [removeField, keysOf] at hmem
  | null => simp [removeField, keysOf] at hmem
  | arr l => simp [removeField, keysOf] at hmem

theorem tryTranslation_all_failing (text : List Char) (outcomes : Nat → Nat → CallOutcome)
    (hout : ∀ i j, (outcomes i j).failing = true) (nP nF pi fi : Nat) :
    tryTranslation text outcomes nP nF pi fi = text := by
  induction pi, fi using tryTranslation.induct text outcomes nP nF with
  | case1 pi fi h => rw [tryTranslation, dif_pos h]
  | case2 pi fi h s hs =>
      have := hout pi fi
      rw [hs] at this
      simp [CallOutcome.failing] at this
  | case3 pi fi h s hs =>
      have := hout pi fi
      rw [hs] at this
      simp [CallOutcome.failing] at this
  | case4 pi fi h hlt hno1 hno2 ih =>
      rw [tryTranslation, dif_neg h]
      cases ho : outcomes pi fi with
      | jsonString s =>
          have := hout pi fi
          rw [ho] at this
          simp [CallOutcome.failing] at this
      | jsonObject s =>
          have := hout pi fi
          rw [ho] at this
          simp [CallOutcome.failing] at this
      | transportError => simp only [dif_pos hlt, ih]
      | timeout => simp only [dif_pos hlt, ih]
      | badJson => simp only [dif_pos hlt, ih]
  | case5 pi fi h hlt hno1 hno2 ih =>
      rw [tryTranslation, dif_neg h]
      cases ho : outcomes pi fi with
      | jsonString s =>
          have := hout pi fi
          rw [ho] at this
          simp [CallOutcome.failing] at this
      | jsonObject s =>
          have := hout pi fi
          rw [ho] at this
          simp [CallOutcome.failing] at this
      | transportError => simp only [dif_neg hlt, ih]
      | timeout => simp only [dif_neg hlt, ih]
      | badJson => simp only [dif_neg hlt, ih]

/-! ## Rewrite-scan lemmas -/

theorem rewriteByMatcherF_congr (m : Nat → List Char → Option (Nat × List Char)) :
    ∀ f1 f2 pos (s : List Char), s.length ≤ f1 → s.length ≤ f2 →
      rewriteByMatcherF m f1 pos s = rewriteByMatcherF m f2 pos s := by
  intro f1
  induction f1 with
  | zero =>
      intro f2 pos s h1 _
      have : s = [] := List.eq_nil_of_length_eq_zero (by omega)
      subst this
      cases f2 <;> rfl
  | succ f1 ih =>
      intro f2 pos s h1 h2
      cases s with
      | nil => cases f2 <;> rfl
      | cons c rest =>
          cases f2 with
          | zero => simp at h2
          | succ f2 =>
              simp only [rewriteByMatcherF]
              cases hm : m pos (c :: rest) with
              | none =>
                  dsimp only
                  simp only [List.length_cons] at h1 h2
                  rw [ih f2 (pos + 1) rest (by omega) (by omega)]
              | some v =>
                  obtain ⟨len, repl⟩ := v
                  dsimp only
                  simp only [List.length_cons] at h1 h2
                  have hd : ((c :: rest).drop (max len 1)).length ≤ f1 := by
                    simp only [List.length_drop, List.length_cons]
                    have := Nat.le_max_right len 1
                    omega
                  have hd2 : ((c :: rest).drop (max len 1)).length ≤ f2 := by
                    simp only [List.length_drop, List.length_cons]
                    have := Nat.le_max_right len 1
                    omega
                  rw [ih f2 (pos + max len 1) _ hd hd2]

theorem rewriteByMatcher_nil (m : Nat → List Char → Option (Nat × List Char)) (pos : Nat) :
    rewriteByMatcher m pos [] = [] := rfl

theorem rewriteByMatcher_cons_none {m : Nat → List Char → Option (Nat × List Char)}
    {pos : Nat} {c : Char} {rest : List Char} (h : m pos (c :: rest) = none) :
    rewriteByMatcher m pos (c :: rest) = c :: rewriteByMatcher m (pos + 1) rest := by
  unfold rewriteByMatcher
  simp only [List.length_cons, rewriteByMatcherF, h]

theorem rewriteByMatcher_cons_some {m : Nat → List Char → Option (Nat × List Char)}
    {pos : Nat} {c : Char} {rest : List Char} {len : Nat} {repl : List Char}
    (h : m pos (c :: rest) = some (len, repl)) :
    rewriteByMatcher m pos (c :: rest) =
      repl ++ rewriteByMatcher m (pos + max len 1) ((c :: rest).drop (max len 1)) := by
  unfold rewriteByMatcher
  simp only [List.length_cons, rewriteByMatcherF, h]
  congr 1
  apply rewriteByMatcherF_congr
  · simp only [List.length_drop, List.length_cons]
    have := Nat.le_max_right len 1
    omega
  · exact le_refl _

theorem rewriteByMatcher_no_match {m : Nat → List Char → Option (Nat × List Char)} :
    ∀ {s : List Char} {pos : Nat},
      (∀ i, i < s.length → m (pos + i) (s.drop i) = none) →
      rewriteByMatcher m pos s = s := by
  intro s
  induction s with
  | nil => intro pos _; rfl
  | cons c rest ih =>
      intro pos h
      have h0 : m pos (c :: rest) = none := by
        have := h 0 (by simp)
        simpa using this
      rw [rewriteByMatcher_cons_none h0]
      congr 1
      apply ih
      intro i hi
      have := h (i + 1) (by simp; omega)
      simpa [Nat.add_assoc, Nat.add_comm 1 i] using this

theorem rewriteByMatcher_append_left {m : Nat → List Char → Option (Nat × List Char)} :
    ∀ {X Y : List Char} {pos : Nat},
      (∀ i, i < X.length → m (pos + i) ((X ++ Y).drop i) = none) →
      rewriteByMatcher m pos (X ++ Y) = X ++ rewriteByMatcher m (pos + X.length) Y := by
  intro X
  induction X with
  | nil => intro Y pos _; simp
  | cons c X' ih =>
      intro Y pos h
      have h0 : m pos (c :: (X' ++ Y)) = none := by
        have := h 0 (by simp)
        simpa using this
      rw [List.cons_append, rewriteByMatcher_cons_none h0]
      rw [ih (fun i hi => by
        have := h (i + 1) (by simp; omega)
        simpa [Nat.add_assoc, Nat.add_comm 1 i] using this)]
      simp [Nat.add_assoc, Nat.add_comm 1 X'.length]

/-- The main single-match workhorse: when no match starts inside X, the match
at the junction consumes exactly P, and no match starts inside Y, the rewrite
replaces P and leaves X and Y alone. -/
theorem rewriteByMatcher_single {m : Nat → List Char → Option (Nat × List Char)}
    {X P Y repl : List Char} {pos : Nat} (hP : P ≠ [])
    (hbefore : ∀ i, i < X.length → m (pos + i) ((X ++ P ++ Y).drop i) = none)
    (hhere : m (pos + X.length) (P ++ Y) = some (P.length, repl))
    (hafter : ∀ i, i < Y.length → m (pos + X.length + P.length + i) (Y.drop i) = none) :
    rewriteByMatcher m pos (X ++ P ++ Y) = X ++ repl ++ Y := by
  rw [List.append_assoc]
  rw [rewriteByMatcher_append_left (by
    intro i hi
    have := hbefore i hi
    rwa [List.append_assoc] at this)]
  cases P with
  | nil => exact absurd rfl hP
  | cons p P' =>
      rw [List.cons_append, rewriteByMatcher_cons_some (by simpa using hhere)]
      have hmax : max (P'.length + 1) 1 = P'.length + 1 := by omega
      simp only [List.length_cons, hmax, List.drop_succ_cons, List.drop_left]
      rw [rewriteByMatcher_no_match (by
        intro i hi
        have := hafter i hi
        simp only [List.length_cons] at this
        exact this)]
      simp

theorem rewriteByMatcher_not_mem {m : Nat → List Char → Option (Nat × List Char)} {c : Char}
    (hrep : ∀ pos suffix len repl, m pos suffix = some (len, repl) → c ∉ repl) :
    ∀ (n : Nat) (s : List Char) (pos : Nat), s.length ≤ n → c ∉ s →
      c ∉ rewriteByMatcher m pos s := by
  intro n
  induction n with
  | zero =>
      intro s pos hlen hmem
      have : s = [] := List.eq_nil_of_length_eq_zero (by omega)
      subst this
      simp [rewriteByMatcher_nil]
  | succ n ih =>
      intro s pos hlen hmem
      cases s with
      | nil => simp [rewriteByMatcher_nil]
      | cons a rest =>
          cases hm : m pos (a :: rest) with
          | none =>
              rw [rewriteByMatcher_cons_none hm]
              intro hcm
              rcases List.mem_cons.mp hcm with h1 | h2
              · exact hmem (by simp [h1])
              · exact ih rest (pos + 1) (by simp at hlen; omega)
                  (fun hr => hmem (List.mem_cons_of_mem a hr)) h2
          | some v =>
              obtain ⟨len, repl⟩ := v
              rw [rewriteByMatcher_cons_some hm]
              intro hcm
              rcases List.mem_append.mp hcm with h1 | h2
              · exact hrep pos (a :: rest) len repl hm h1
              · refine ih _ _ ?_ ?_ h2
                · simp only [List.length_drop, List.length_cons]
                  simp only [List.length_cons] at hlen
                  have := Nat.le_max_right len 1
                  omega
                · intro hd
                  exact hmem (List.drop_subset _ _ hd)

/-- hasSubstr is existence of a prefix position. -/
theorem hasSubstr_iff {p : List Char} :
    ∀ {s : List Char}, hasSubstr p s = true ↔ ∃ i, p <+: s.drop i := by
  intro s
  induction s with
  | nil =>
      simp only [hasSubstr, List.isEmpty_iff]
      constructor
      · intro h; exact ⟨0, by simp [h]⟩
      · rintro ⟨i, hi⟩
        simpa using List.eq_nil_of_prefix_nil (by simpa using hi)
  | cons c rest ih =>
      simp only [hasSubstr, Bool.or_eq_true, List.isPrefixOf_iff_prefix, ih]
      constructor
      · rintro (h | ⟨i, hi⟩)
        · exact ⟨0, by simpa using h⟩
        · exact ⟨i + 1, by simpa using hi⟩
      · rintro ⟨i, hi⟩
        cases i with
        | zero => exact Or.inl (by simpa using hi)
        | succ i => exact Or.inr ⟨i, by simpa using hi⟩

/-! ## Digit-string and placeholder lemmas -/

theorem natDigitsF_digits :
    ∀ (fuel n : Nat), ∀ c ∈ natDigitsF fuel n, isAsciiDigit c = true := by
  intro fuel
  induction fuel with
  | zero => intro n c hc; simp [natDigitsF] at hc
  | succ fuel ih =>
      intro n c hc
      simp only [natDigitsF] at hc
      split at hc
      · next hlt =>
          simp only [List.mem_singleton] at hc
          subst hc
          interval_cases n <;> decide
      · rcases List.mem_append.mp hc with h1 | h2
        · exact ih (n / 10) c h1
        · simp only [List.mem_singleton] at h2
          subst h2
          have : n % 10 < 10 := Nat.mod_lt n (by omega)
          generalize hr : n % 10 = r at this ⊢
          interval_cases r <;> decide

theorem natDigits_digits (n : Nat) : ∀ c ∈ natDigits n, isAsciiDigit c = true :=
  natDigitsF_digits (n + 1) n

theorem natDigits_ne_nil (n : Nat) : natDigits n ≠ [] := by
  unfold natDigits natDigitsF
  split
  · simp
  · simp

theorem phStr_ne_nil (k : Nat) : phStr k ≠ [] := by
  unfold phStr
  simp

theorem takeWhile_digits_underscore :
    ∀ (d : List Char), (∀ c ∈ d, isAsciiDigit c = true) →
      ∀ r : List Char, (d ++ '_' :: r).takeWhile isAsciiDigit = d ∧
        (d ++ '_' :: r).drop d.length = '_' :: r := by
  intro d
  induction d with
  | nil =>
      intro _ r
      constructor
      · have hnd : isAsciiDigit '_' = false := by decide
        simp [List.takeWhile_cons, hnd]
      · simp
  | cons c d' ih =>
      intro h r
      have hc : isAsciiDigit c = true := h c (by simp)
      have ih' := ih (fun x hx => h x (by simp [hx])) r
      constructor
      · simp only [List.cons_append, List.takeWhile_cons, hc, if_true, ih'.1]
      · simpa using ih'.2

theorem parseTagToken_phStr (k : Nat) : parseTagToken (phStr k) = some (natDigits k) := by
  unfold parseTagToken phStr
  have hpre : "___TAG".toList.isPrefixOf
      ("___TAG".toList ++ natDigits k ++ "___".toList) = true := by
    rw [List.isPrefixOf_iff_prefix, List.append_assoc]
    exact List.prefix_append _ _
  rw [hpre]
  simp only [if_true]
  have hdrop : ("___TAG".toList ++ natDigits k ++ "___".toList).drop 6 =
      natDigits k ++ "___".toList := by
    rw [List.append_assoc]
    exact List.drop_left "___TAG".toList _
  rw [hdrop]
  have h3 : natDigits k ++ "___".toList = natDigits k ++ '_' :: "__".toList := by rfl
  rw [h3]
  obtain ⟨ht, hd⟩ := takeWhile_digits_underscore (natDigits k) (natDigits_digits k) "__".toList
  rw [ht, hd]
  rw [if_pos ⟨natDigits_ne_nil k, rfl⟩]

theorem occursAt_le_length {p s : List Char} {i : Nat} (hp : p ≠ [])
    (h : occursAt p s i) : i ≤ s.length := by
  unfold occursAt at h
  by_contra hgt
  have : s.drop i = [] := List.drop_eq_nil_of_le (by omega)
  rw [this] at h
  exact hp (List.eq_nil_of_prefix_nil h)

/-! ## Extraction-structure lemmas -/

theorem splitAtClose_join :
    ∀ {cs a b : List Char}, splitAtClose cs = some (a, b) →
      cs = a ++ '〉' :: b ∧ '〉' ∉ a := by
  intro cs
  induction cs with
  | nil => intro a b h; simp [splitAtClose] at h
  | cons c cs' ih =>
      intro a b h
      simp only [splitAtClose] at h
      split at h
      · next hc =>
          simp only [Option.some.injEq, Prod.mk.injEq] at h
          obtain ⟨h1, h2⟩ := h
          subst h1; subst h2
          subst hc
          exact ⟨rfl, by simp⟩
      · next hc =>
          cases hsc : splitAtClose cs' with
          | none => rw [hsc] at h; simp at h
          | some v =>
              obtain ⟨a', b'⟩ := v
              rw [hsc] at h
              simp only [Option.some.injEq, Prod.mk.injEq] at h
              obtain ⟨h1, h2⟩ := h
              subst h2
              obtain ⟨hj, hm⟩ := ih hsc
              constructor
              · rw [← h1, hj]
                simp
              · rw [← h1]
                intro hmem
                rcases List.mem_cons.mp hmem with h3 | h4
                · exact hc h3.symm
                · exact hm h4

theorem consLit_asmRaw (c : Char) (d : List (List Char × List Char) × List Char) :
    asmRaw (consLit c d).1 (consLit c d).2 = c :: asmRaw d.1 d.2 := by
  obtain ⟨ps, trail⟩ := d
  cases ps with
  | nil => rfl
  | cons pr ps' => obtain ⟨lit, tag⟩ := pr; rfl

theorem scanDecompF_join :
    ∀ (fuel : Nat) (s : List Char), s.length ≤ fuel →
      asmRaw (scanDecompF fuel s).1 (scanDecompF fuel s).2 = s := by
  intro fuel
  induction fuel with
  | zero =>
      intro s h
      have : s = [] := List.eq_nil_of_length_eq_zero (by omega)
      subst this
      rfl
  | succ fuel ih =>
      intro s h
      cases s with
      | nil => rfl
      | cons c rest =>
          simp only [List.length_cons] at h
          simp only [scanDecompF]
          split
          · next hc =>
              cases hsc : splitAtClose rest with
              | none => rw [consLit_asmRaw, ih rest (by omega)]
              | some v =>
                  obtain ⟨content, after⟩ := v
                  by_cases hct : content = []
                  · simp only [hct, if_true]
                    rw [consLit_asmRaw, ih rest (by omega)]
                  · simp only [hct, if_false]
                    obtain ⟨hj, _⟩ := splitAtClose_join hsc
                    have hlen : after.length ≤ fuel := by
                      have := congrArg List.length hj
                      simp at this
                      omega
                    simp only [asmRaw]
                    rw [ih after hlen]
                    rw [hc, hj]
                    simp
          · rw [consLit_asmRaw, ih rest (by omega)]

theorem matchList_consLit (c : Char) (d : List (List Char × List Char) × List Char)
    (pos : Nat) :
    matchList (consLit c d).1 pos = matchList d.1 (pos + 1) := by
  obtain ⟨ps, trail⟩ := d
  cases ps with
  | nil => rfl
  | cons pr ps' =>
      obtain ⟨lit, tag⟩ := pr
      simp only [consLit, matchList, List.length_cons]
      have e1 : pos + (lit.length + 1) = pos + 1 + lit.length := by omega
      rw [e1]

theorem findMatchesF_eq_matchList :
    ∀ (fuel : Nat) (s : List Char) (pos : Nat), s.length ≤ fuel →
      findMatchesF fuel s pos = matchList (scanDecompF fuel s).1 pos := by
  intro fuel
  induction fuel with
  | zero =>
      intro s pos h
      have : s = [] := List.eq_nil_of_length_eq_zero (by omega)
      subst this
      rfl
  | succ fuel ih =>
      intro s pos h
      cases s with
      | nil => rfl
      | cons c rest =>
          simp only [List.length_cons] at h
          simp only [findMatchesF, scanDecompF]
          split
          · next hc =>
              cases hsc : splitAtClose rest with
              | none => rw [matchList_consLit, ih rest (pos + 1) (by omega)]
              | some v =>
                  obtain ⟨content, after⟩ := v
                  by_cases hct : content = []
                  · simp only [hct, if_true]
                    rw [matchList_consLit, ih rest (pos + 1) (by omega)]
                  · simp only [hct, if_false]
                    obtain ⟨hj, _⟩ := splitAtClose_join hsc
                    have hlen : after.length ≤ fuel := by
                      have := congrArg List.length hj
                      simp at this
                      omega
                    simp only [matchList, List.length_nil, Nat.add_zero]
                    rw [ih after _ hlen]
                    have e : pos + content.length + 2 =
                        pos + ('〈' :: (content ++ ['〉'])).length := by
                      simp only [List.length_cons, List.length_append, List.length_nil]
                      omega
                    rw [e]
          · rw [matchList_consLit, ih rest (pos + 1) (by omega)]

theorem asmRaw_flat : ∀ (ps : List (List Char × List Char)) (y : List Char),
    asmRaw ps y = asmRaw ps [] ++ y := by
  intro ps
  induction ps with
  | nil => intro y; rfl
  | cons pr ps' ih =>
      intro y
      obtain ⟨lit, tag⟩ := pr
      simp only [asmRaw]
      rw [ih y, ih ([] : List Char)]
      simp

theorem asmRaw_nil_length : ∀ ps : List (List Char × List Char),
    (asmRaw ps []).length = sumLen ps := by
  intro ps
  induction ps with
  | nil => rfl
  | cons pr ps' ih =>
      obtain ⟨lit, tag⟩ := pr
      simp only [asmRaw, sumLen]
      rw [asmRaw_flat ps' []]
      simp only [List.length_append, ih]
      simp

theorem asmRaw_append : ∀ (ps qs : List (List Char × List Char)) (y : List Char),
    asmRaw (ps ++ qs) y = asmRaw ps (asmRaw qs y) := by
  intro ps qs y
  induction ps with
  | nil => rfl
  | cons pr ps' ih =>
      obtain ⟨lit, tag⟩ := pr
      simp only [List.cons_append, asmRaw, List.append_eq, ih]

theorem matchList_append : ∀ (ps qs : List (List Char × List Char)) (pos : Nat),
    matchList (ps ++ qs) pos = matchList ps pos ++ matchList qs (pos + sumLen ps) := by
  intro ps
  induction ps with
  | nil => intro qs pos; simp [matchList, sumLen]
  | cons pr ps' ih =>
      intro qs pos
      obtain ⟨lit, tag⟩ := pr
      simp only [List.cons_append, matchList, sumLen, List.append_eq, ih]
      have e : pos + lit.length + tag.length + sumLen ps' =
          pos + (lit.length + tag.length + sumLen ps') := by omega
      rw [e]

theorem asmPh_append_last (t0 : Nat) (lit tag trailX : List Char) :
    ∀ ps : List (List Char × List Char),
      asmPh t0 (ps ++ [(lit, tag)]) trailX = asmPh (t0 + 1) ps (lit ++ phStr t0 ++ trailX) := by
  intro ps
  induction ps with
  | nil => simp [asmPh]
  | cons pr ps' ih =>
      obtain ⟨l0, g0⟩ := pr
      simp only [List.cons_append, asmPh, List.append_eq, List.length_append,
        List.length_cons, List.length_nil, ih]
      have e1 : t0 + (ps'.length + 1) = t0 + 1 + ps'.length := by omega
      rw [e1]

theorem tmSpec_append_last (t0 : Nat) (lit tag : List Char) :
    ∀ ps : List (List Char × List Char),
      tmSpec t0 (ps ++ [(lit, tag)]) = (phStr t0, tag) :: tmSpec (t0 + 1) ps := by
  intro ps
  induction ps with
  | nil => simp [tmSpec]
  | cons pr ps' ih =>
      obtain ⟨l0, g0⟩ := pr
      simp only [List.cons_append, tmSpec, ih, List.append_eq, List.length_append,
        List.length_cons, List.length_nil]
      have e1 : t0 + (ps'.length + 1) = t0 + 1 + ps'.length := by omega
      rw [e1]

theorem listSplice_exact (A tagPart B r : List Char) :
    listSplice (A ++ tagPart ++ B) A.length tagPart.length r = A ++ r ++ B := by
  unfold listSplice
  have ht : (A ++ tagPart ++ B).take A.length = A := by
    rw [List.append_assoc]
    exact List.take_left A _
  have hd : (A ++ tagPart ++ B).drop (A.length + tagPart.length) = B := by
    have h2 : A.length + tagPart.length = (A ++ tagPart).length := by simp
    rw [h2]
    exact List.drop_left _ _
  rw [ht, hd]

theorem extractLoop_spec :
    ∀ (pairs : List (List Char × List Char)) (trailX : List Char)
      (acc : List (List Char × List Char)) (t0 : Nat),
      (matchList pairs 0).reverse.foldl extractStep (asmRaw pairs trailX, acc, t0) =
        (asmPh t0 pairs trailX, acc ++ tmSpec t0 pairs, t0 + pairs.length) := by
  intro pairs
  induction pairs using List.reverseRecOn with
  | nil => intro trailX acc t0; simp [matchList, asmRaw, asmPh, tmSpec]
  | append_singleton ps pr ih =>
      intro trailX acc t0
      obtain ⟨lit, tag⟩ := pr
      rw [matchList_append]
      simp only [matchList, List.reverse_append, List.reverse_cons, List.reverse_nil,
        List.nil_append, List.cons_append, List.foldl_cons]
      rw [asmRaw_append]
      simp only [asmRaw]
      have hshape : asmRaw ps (lit ++ tag ++ trailX) =
          (asmRaw ps [] ++ lit) ++ tag ++ trailX := by
        rw [asmRaw_flat]
        simp [List.append_assoc]
      have hidx : 0 + sumLen ps + lit.length = (asmRaw ps [] ++ lit).length := by
        simp only [List.length_append, asmRaw_nil_length]
        omega
      have hfst : listSplice (asmRaw ps (lit ++ tag ++ trailX))
          (0 + sumLen ps + lit.length) tag.length (phStr t0) =
          asmRaw ps (lit ++ phStr t0 ++ trailX) := by
        rw [hshape, hidx, listSplice_exact]
        rw [asmRaw_flat ps (lit ++ phStr t0 ++ trailX)]
        simp [List.append_assoc]
      have hstep :
          extractStep (asmRaw ps (lit ++ tag ++ trailX), acc, t0)
            (tag, 0 + sumLen ps + lit.length) =
          (asmRaw ps (lit ++ phStr t0 ++ trailX), acc ++ [(phStr t0, tag)], t0 + 1) := by
        unfold extractStep
        dsimp only
        rw [hfst]
      rw [hstep, ih]
      rw [asmPh_append_last, tmSpec_append_last]
      simp only [Prod.mk.injEq, List.length_append, List.length_cons, List.length_nil,
        List.append_assoc, List.singleton_append]
      refine ⟨trivial, trivial, by omega⟩

/-! ## Claim theorems -/

/-- C10: for every input string that is empty or consists only of whitespace,
translateWithSugoi resolves with that string unchanged and performs no HTTP
request, whatever the network would have answered. -/
theorem C10_whitespace_short_circuit (text : List Char)
    (outcomes : Nat → Nat → CallOutcome) (h : ∀ c ∈ text, jsWhitespace c = true) :
    translateWithSugoi text outcomes = (text, false) := by
  unfold translateWithSugoi
  rw [if_pos (Or.inr (jsTrim_of_all_ws h))]

/-- Witness for C10 at the two-space string with a network that would answer. -/
theorem C10_witness :
    translateWithSugoi [' ', ' '] (fun _ _ => CallOutcome.jsonString ['X']) =
      ([' ', ' '], false) :=
  C10_whitespace_short_circuit [' ', ' '] (fun _ _ => CallOutcome.jsonString ['X'])
    (by decide)

/-- C5: when every attempt ends in a transport error, a timeout, or a body
that fails JSON parsing, translateWithSugoi resolves with the original input
string unchanged (the retry chain over all ports and formats falls back to
the source text; the model is a total function, so no rejection or batch
abort can occur). -/
theorem C5_failure_falls_back (text : List Char) (outcomes : Nat → Nat → CallOutcome)
    (hout : ∀ i j, (outcomes i j).failing = true) :
    (translateWithSugoi text outcomes).1 = text := by
  unfold translateWithSugoi
  split
  · rfl
  · exact tryTranslation_all_failing text outcomes hout 1 1 0 0

/-- Witness for C5: a timeout on the only port resolves the original text. -/
theorem C5_witness :
    (translateWithSugoi "こんにちは".toList (fun _ _ => CallOutcome.timeout)).1 =
      "こんにちは".toList :=
  C5_failure_falls_back "こんにちは".toList (fun _ _ => CallOutcome.timeout)
    (by intro i j; rfl)

/-- C6 counterexample: a file whose legacy marker is present with the boolean
value false is not treated as already done — processJsonFile translates it —
refuting the claim that any boolean or string marker value causes a skip. -/
theorem C6_counterexample :
    lookupField (JValue.obj [(markerKey, JValue.jbool false)]) markerKey =
      some (JValue.jbool false) ∧
    (processJsonFile (fun s => s) (JValue.obj [(markerKey, JValue.jbool false)])).skipped =
      false := by
  constructor
  · rfl
  · rfl

/-- C6 amended: the file is skipped and recorded exactly when the marker value
is the boolean true or the string "true"; whenever an output is written, the
marker key is absent from it. -/
theorem C6_marker_semantics (f : List Char → List Char) (data : JValue) :
    (isTrueMarker (lookupField data markerKey) = true →
      (processJsonFile f data).skipped = true ∧
      (processJsonFile f data).recorded = true ∧
      (processJsonFile f data).output = none) ∧
    (∀ out, (processJsonFile f data).output = some out → markerKey ∉ keysOf out) := by
  constructor
  · intro h
    unfold processJsonFile
    rw [if_pos h]
    exact ⟨rfl, rfl, rfl⟩
  · intro out hout
    unfold processJsonFile at hout
    split at hout
    · simp at hout
    · simp only [Option.some.injEq] at hout
      rw [← hout, keysOf_translateObjectValues]
      exact markerKey_not_mem_removeField data

/-- Witness for C6: a true marker skips and records; a processed file (marker
false) has no marker key in its output. -/
theorem C6_witness :
    ((processJsonFile (fun s => s) (JValue.obj [(markerKey, JValue.jbool true)])).skipped = true ∧
     (processJsonFile (fun s => s) (JValue.obj [(markerKey, JValue.jbool true)])).recorded = true ∧
     (processJsonFile (fun s => s) (JValue.obj [(markerKey, JValue.jbool true)])).output = none) ∧
    markerKey ∉ keysOf (JValue.obj [("あ".toList, JValue.null)]) := by
  refine ⟨(C6_marker_semantics (fun s => s)
    (JValue.obj [(markerKey, JValue.jbool true)])).1 (by decide), ?_⟩
  have h2 := (C6_marker_semantics (fun s => s)
    (JValue.obj [(markerKey, JValue.jbool false), ("あ".toList, JValue.null)])).2
    (JValue.obj [("あ".toList, JValue.null)])
  exact h2 (by rfl)

/-- C4 (code bug): an input in which two %user...na% occurrences overlap in a
shared percent sign, with a hyphen blocking the later spacing rescue, leaves a
non-canonical %user...na% variant in the final output even under an identity
translation; the code's stated intent is that only the canonical form
%usernameusernameuserna% survives. -/
theorem C4_collapse_failure :
    hasUserVariant "-%userAna%userXna%".toList = true ∧
    translateString id "-%userAna%userXna%".toList =
      "-%usernameusernameuserna%userXna%".toList ∧
    hasSubstr "%userXna%".toList (translateString id "-%userAna%userXna%".toList) = true ∧
    (userVariantMatchAt "%userXna%".toList).isSome = true ∧
    ¬ ("%userXna%".toList = canonicalUser) := by
  refine ⟨by decide, by decide, by decide, by decide, by decide⟩

/-- C1 counterexample: a balanced input whose first span contains the text of
a placeholder. The identity round trip destroys that span (the exact-match
replacement also fires inside the restored span), so the span does not appear
verbatim in the output. -/
theorem C1_counterexample :
    balancedTags "〈___TAG0___〉〈b〉".toList = true ∧
    (scanDecomp "〈___TAG0___〉〈b〉".toList).1.map (·.2) =
      ["〈___TAG0___〉".toList, "〈b〉".toList] ∧
    roundTrip "〈___TAG0___〉〈b〉".toList = "〈〈b〉〉〈b〉".toList ∧
    hasSubstr "〈___TAG0___〉".toList (roundTrip "〈___TAG0___〉〈b〉".toList) = false := by
  refine ⟨by decide, by decide, by decide, by decide⟩

/-- C2 counterexample: on 〈a〉〈b〉 the first (0-based left-to-right) span 〈a〉
receives placeholder ___TAG1___, not ___TAG0___; ___TAG0___ maps to 〈b〉. -/
theorem C2_counterexample :
    (scanDecomp "〈a〉〈b〉".toList).1.map (·.2) = ["〈a〉".toList, "〈b〉".toList] ∧
    (extractAndPreserveTags "〈a〉〈b〉".toList).1 = "___TAG1______TAG0___".toList ∧
    (extractAndPreserveTags "〈a〉〈b〉".toList).2 =
      [("___TAG0___".toList, "〈b〉".toList), ("___TAG1___".toList, "〈a〉".toList)] ∧
    ¬ ((extractAndPreserveTags "〈a〉〈b〉".toList).1 = "___TAG0______TAG1___".toList) := by
  refine ⟨by decide, by decide, by decide, by decide⟩

/-- The extractor's output on any input: the processed text is the scan
decomposition with placeholder indices counted from the rightmost span, and
the tag map records the spans in that right-to-left insertion order. -/
theorem extract_spec (s : List Char) :
    extractAndPreserveTags s =
      (asmPh 0 (scanDecomp s).1 (scanDecomp s).2, tmSpec 0 (scanDecomp s).1) := by
  unfold extractAndPreserveTags findMatches scanDecomp
  rw [findMatchesF_eq_matchList s.length s 0 (le_refl _)]
  generalize hd : scanDecompF s.length s = d
  obtain ⟨pairs, trail⟩ := d
  have h2 : s = asmRaw pairs trail := by
    have := scanDecompF_join s.length s (le_refl _)
    rw [hd] at this
    exact this.symm
  conv_lhs => rw [h2]
  rw [extractLoop_spec pairs trail [] 0]
  simp

/-- C2 (amended): with N spans scanned left to right, extractAndPreserveTags
replaces the i-th span by the placeholder ___TAG(N-1-i)___ — indices are
assigned from the rightmost span, which gets ___TAG0___ — and the returned
tag map associates each placeholder with exactly the span text it replaced,
brackets included, in that insertion order. -/
theorem C2_extraction_structure (s : List Char) :
    extractAndPreserveTags s =
      (asmPh 0 (scanDecomp s).1 (scanDecomp s).2, tmSpec 0 (scanDecomp s).1) :=
  extract_spec s

/-- C7 counterexample: when the canonical marker occurrence that is followed
by "san" is immediately preceded by an overlapping marker-shaped prefix, the
honorific regex consumes the wrong occurrence and the final output contains
no hyphenated marker-honorific. -/
theorem C7_counterexample :
    hasSubstr (canonicalUser ++ "san".toList)
      "%usernameusernameuserna%usernameusernameuserna%san".toList = true ∧
    finalNormalize "%usernameusernameuserna%usernameusernameuserna%san".toList =
      "%usernameusernameuserna %usernameusernameuserna% san".toList ∧
    hasSubstr (canonicalUser ++ "-san".toList)
      (finalNormalize "%usernameusernameuserna%usernameusernameuserna%san".toList) = false := by
  refine ⟨by decide, by decide, by decide⟩

theorem mem_insertDescBy {α : Type} {key : α → Nat} {x y : α} :
    ∀ {l : List α}, x ∈ insertDescBy key y l ↔ x = y ∨ x ∈ l := by
  intro l
  induction l with
  | nil => simp [insertDescBy]
  | cons a rest ih =>
      simp only [insertDescBy]
      split
      · simp [List.mem_cons]
      · simp only [List.mem_cons, ih]
        tauto

theorem mem_sortDescBy {α : Type} {key : α → Nat} {x : α} {l : List α} :
    x ∈ sortDescBy key l → x ∈ l := by
  have main : ∀ (l acc : List α),
      x ∈ l.foldl (fun acc y => insertDescBy key y acc) acc → x ∈ l ∨ x ∈ acc := by
    intro l
    induction l with
    | nil => intro acc h; exact Or.inr h
    | cons a rest ih =>
        intro acc h
        rcases ih (insertDescBy key a acc) h with h1 | h2
        · exact Or.inl (List.mem_cons_of_mem a h1)
        · rcases mem_insertDescBy.mp h2 with h3 | h4
          · exact Or.inl (by simp [h3])
          · exact Or.inr h4
  intro h
  rcases main l [] h with h1 | h2
  · exact h1
  · simp at h2

theorem foldl_fixed {α β : Type} {g : β → α → β} {s : β} :
    ∀ {l : List α}, (∀ e ∈ l, g s e = s) → l.foldl g s = s := by
  intro l
  induction l with
  | nil => intro _; rfl
  | cons a rest ih =>
      intro h
      simp only [List.foldl_cons, h a (by simp)]
      exact ih (fun e he => h e (List.mem_cons_of_mem a he))

/-- C9: restoreTags is total and best-effort: with any tag map whose entries
have neither an exact occurrence nor a surviving fuzzy match in the text —
dangling placeholder-shaped substrings of the text included — the text is
returned unchanged, and no error can arise since the model is a total
function. -/
theorem C9_restore_best_effort (text : List Char) (tm : List (List Char × List Char))
    (h : ∀ e ∈ tm, hasSubstr e.1 text = false ∧
          (parseTagToken e.1).all (fun ds => (collectFuzzy text ds).isEmpty) = true) :
    restoreTags text tm = text := by
  unfold restoreTags
  apply foldl_fixed
  intro e he
  have he' := h e (mem_sortDescBy he)
  obtain ⟨hno, hfz⟩ := he'
  unfold restoreEntry
  cases hp : parseTagToken e.1 with
  | some ds =>
      rw [hno]
      simp only [Bool.false_eq_true, if_false]
      rw [hp] at hfz
      simp only [Option.all_some] at hfz
      have : collectFuzzy text ds = [] := by
        simpa [List.isEmpty_iff] using hfz
      rw [this]
      rfl
  | none =>
      unfold replaceAllConst
      apply rewriteByMatcher_no_match
      intro i _
      have : ¬ (e.1.isPrefixOf (text.drop i) = true) := by
        intro hpref
        rw [List.isPrefixOf_iff_prefix] at hpref
        have : hasSubstr e.1 text = true := hasSubstr_iff.mpr ⟨i, hpref⟩
        rw [this] at hno
        exact Bool.true_eq_false.mp hno
      simp [this]

/-- Witness for C9: a dangling ___TAG9___ in the text and an orphaned
___TAG3___ tag-map entry leave the text untouched. -/
theorem C9_witness :
    restoreTags "hello ___TAG9___".toList [("___TAG3___".toList, "〈x〉".toList)] =
      "hello ___TAG9___".toList :=
  C9_restore_best_effort _ _ (by decide)

/-- C8 counterexample: the spacing class is [a-zA-Z0-9%], so an adjacent
percent sign (not alphanumeric) still receives a space; and on the fuzzy path
the spacing decision reads the character one before the consumed lead
character, which is also dropped from the output. -/
theorem C8_counterexample :
    restoreTags "%___TAG0___".toList [("___TAG0___".toList, "〈x〉".toList)] =
      "% 〈x〉".toList ∧
    isAsciiAlnum '%' = false ∧
    restoreTags "a.__TAG0__".toList [("___TAG0___".toList, "〈x〉".toList)] =
      "a 〈x〉".toList ∧
    isAsciiAlnum '.' = false := by
  refine ⟨by decide, by decide, by decide, by decide⟩

/-- C8 (amended): on the exact-match path, a substitution for placeholder
___TAG<k>___ inserts a single space on a given side exactly when the subject
character adjacent on that side exists and lies in the class [a-zA-Z0-9%]
(alphanumeric or percent; such a character is never whitespace), and inserts
nothing otherwise. Stated for a text with a unique placeholder occurrence. -/
theorem C8_exact_spacing (pre post tag : List Char) (k : Nat)
    (huniq : ∀ i, i ≤ (pre ++ phStr k ++ post).length →
      occursAt (phStr k) (pre ++ phStr k ++ post) i → i = pre.length) :
    restoreTags (pre ++ phStr k ++ post) [(phStr k, tag)] =
      pre ++
      ((match pre.getLast? with
        | some c => if isTagAdjacent c && !(jsWhitespace c) then [' '] else []
        | none => []) ++ tag ++
       (match post.head? with
        | some c => if isTagAdjacent c && !(jsWhitespace c) then [' '] else []
        | none => [])) ++ post := by
  have hocc : occursAt (phStr k) (pre ++ phStr k ++ post) pre.length := by
    unfold occursAt
    rw [List.append_assoc, List.drop_left]
    exact List.prefix_append _ _
  have hsub : hasSubstr (phStr k) (pre ++ phStr k ++ post) = true :=
    hasSubstr_iff.mpr ⟨pre.length, hocc⟩
  unfold restoreTags
  have hsort : sortDescBy (fun e => tagSortKey e.1) [(phStr k, tag)] = [(phStr k, tag)] := rfl
  rw [hsort]
  simp only [List.foldl_cons, List.foldl_nil]
  unfold restoreEntry
  rw [parseTagToken_phStr k]
  simp only
  rw [hsub]
  simp only [if_true]
  unfold replaceExactWithSpacing
  refine Eq.trans (b := pre ++
      ((if needsSpaceBefore (pre ++ phStr k ++ post) (0 + pre.length)
        then [' '] else []) ++ tag ++
       (if needsSpaceAfter (pre ++ phStr k ++ post) (0 + pre.length + (phStr k).length)
        then [' '] else [])) ++ post) ?step ?fin
  case fin =>
    have hB : needsSpaceBefore (pre ++ phStr k ++ post) (0 + pre.length) =
        (match pre.getLast? with
         | some c => isTagAdjacent c && !(jsWhitespace c)
         | none => false) := by
      unfold needsSpaceBefore
      cases hpre : pre with
      | nil => simp
      | cons p0 pr =>
          rw [← hpre]
          have hne : ¬ (0 + pre.length = 0) := by
            rw [hpre]; simp
          rw [if_neg hne]
          have hlt : 0 + pre.length - 1 < pre.length := by
            rw [hpre]; simp
          have hidx : (pre ++ phStr k ++ post)[0 + pre.length - 1]? =
              pre[0 + pre.length - 1]? := by
            rw [List.append_assoc]
            exact List.getElem?_append_left hlt
          rw [hidx]
          have : pre[0 + pre.length - 1]? = pre.getLast? := by
            rw [List.getLast?_eq_getElem?]
            congr 1
            omega
          rw [this]
      -- both sides are the same match on pre.getLast?
    have hA : needsSpaceAfter (pre ++ phStr k ++ post) (0 + pre.length + (phStr k).length) =
        (match post.head? with
         | some c => isTagAdjacent c && !(jsWhitespace c)
         | none => false) := by
      unfold needsSpaceAfter
      have hidx : (pre ++ phStr k ++ post)[0 + pre.length + (phStr k).length]? =
          post[0]? := by
        have h1 : pre ++ phStr k ++ post = (pre ++ phStr k) ++ post := by
          rw [List.append_assoc]
        rw [h1]
        have h2 : (pre ++ phStr k).length ≤ 0 + pre.length + (phStr k).length := by
          simp
        rw [List.getElem?_append_right h2]
        congr 1
        simp
      rw [hidx]
      cases post with
      | nil => simp
      | cons q qs => simp
    rw [hB, hA]
    cases hpre : pre.getLast? <;> cases hpost : post.head? <;> simp
  refine rewriteByMatcher_single (phStr_ne_nil k) ?hbefore ?hhere ?hafter
  case hbefore =>
    intro i hi
    dsimp only
    rw [if_neg]
    intro hpref
    rw [List.isPrefixOf_iff_prefix] at hpref
    have hoc : occursAt (phStr k) (pre ++ phStr k ++ post) (0 + i) := by
      simpa [occursAt] using hpref
    have := huniq (0 + i) (occursAt_le_length (phStr_ne_nil k) hoc) hoc
    omega
  case hhere =>
    dsimp only
    rw [if_pos]
    rw [List.isPrefixOf_iff_prefix]
    exact List.prefix_append _ _
  case hafter =>
    intro i hi
    dsimp only
    rw [if_neg]
    intro hpref
    rw [List.isPrefixOf_iff_prefix] at hpref
    have hdrop : (pre ++ phStr k ++ post).drop (pre.length + (phStr k).length + i) =
        post.drop i := by
      have h1 : pre ++ phStr k ++ post = (pre ++ phStr k) ++ post := by
        rw [List.append_assoc]
      rw [h1]
      have h2 : pre.length + (phStr k).length + i = (pre ++ phStr k).length + i := by
        simp
      rw [h2, List.drop_append]
    have hoc : occursAt (phStr k) (pre ++ phStr k ++ post)
        (pre.length + (phStr k).length + i) := by
      unfold occursAt
      rw [hdrop]
      exact hpref
    have heq := huniq _ (occursAt_le_length (phStr_ne_nil k) hoc) hoc
    have hph : (phStr k).length ≠ 0 := by
      intro h0
      exact phStr_ne_nil k (List.eq_nil_of_length_eq_zero h0)
    omega

/-- Witness for C8: a unique placeholder between ":" and "y" gets a space only
on the y side. -/
theorem C8_witness :
    restoreTags (":".toList ++ phStr 0 ++ "y".toList) [(phStr 0, "〈t〉".toList)] =
      ":".toList ++
      (([] : List Char) ++ "〈t〉".toList ++ [' ']) ++ "y".toList :=
  C8_exact_spacing ":".toList "y".toList "〈t〉".toList 0 (by decide)

/-! ## Line segmenter lemmas for C3 -/

theorem splitNL_ne_nil (s : List Char) : splitNL s ≠ [] := by
  cases s with
  | nil => simp [splitNL]
  | cons c rest =>
      simp only [splitNL]
      split
      · simp
      · cases h : splitNL rest <;> simp

theorem splitNL_parts_nf : ∀ s : List Char, ∀ p ∈ splitNL s, '\n' ∉ p := by
  intro s
  induction s with
  | nil =>
      intro p hp
      simp only [splitNL, List.mem_singleton] at hp
      simp [hp]
  | cons c rest ih =>
      intro p hp
      by_cases hc : c = '\n'
      · simp only [splitNL, if_pos hc, List.mem_cons] at hp
        rcases hp with h1 | h2
        · simp [h1]
        · exact ih p h2
      · simp only [splitNL, if_neg hc] at hp
        cases h : splitNL rest with
        | nil => exact absurd h (splitNL_ne_nil rest)
        | cons q qs =>
            rw [h] at hp
            rcases List.mem_cons.mp hp with h1 | h2
            · subst h1
              intro hm
              rcases List.mem_cons.mp hm with h3 | h4
              · exact hc h3.symm
              · exact ih q (by simp [h]) h4
            · exact ih p (by simp [h, h2])

theorem splitNL_length : ∀ s : List Char, (splitNL s).length = s.count '\n' + 1 := by
  intro s
  induction s with
  | nil => simp [splitNL]
  | cons c rest ih =>
      by_cases hc : c = '\n'
      · simp only [splitNL, if_pos hc, List.length_cons, ih, List.count_cons]
        simp [hc]
      · simp only [splitNL, if_neg hc]
        cases h : splitNL rest with
        | nil => exact absurd h (splitNL_ne_nil rest)
        | cons q qs =>
            simp only [List.length_cons]
            rw [h] at ih
            simp only [List.length_cons] at ih
            simp only [List.count_cons]
            have : ¬ (c = '\n') := hc
            simp [this, ih]

theorem splitNL_nf {s : List Char} (h : '\n' ∉ s) : splitNL s = [s] := by
  induction s with
  | nil => rfl
  | cons c rest ih =>
      have hc : ¬ (c = '\n') := fun he => h (by simp [he])
      simp only [splitNL, if_neg hc]
      rw [ih (fun hm => h (List.mem_cons_of_mem c hm))]

theorem splitNL_append_nl {p : List Char} (hp : '\n' ∉ p) (rest : List Char) :
    splitNL (p ++ '\n' :: rest) = p :: splitNL rest := by
  induction p with
  | nil => simp [splitNL]
  | cons c p' ih =>
      have hc : ¬ (c = '\n') := fun he => hp (by simp [he])
      simp only [List.cons_append, splitNL, if_neg hc, List.append_eq]
      rw [ih (fun hm => hp (List.mem_cons_of_mem c hm))]

theorem splitNL_joinNL : ∀ parts : List (List Char), parts ≠ [] →
    (∀ p ∈ parts, '\n' ∉ p) → splitNL (joinNL parts) = parts := by
  intro parts
  induction parts with
  | nil => intro h _; exact absurd rfl h
  | cons p rest ih =>
      intro _ hnf
      cases rest with
      | nil => exact splitNL_nf (hnf p (by simp))
      | cons q qs =>
          show splitNL (p ++ '\n' :: joinNL (q :: qs)) = _
          rw [splitNL_append_nl (hnf p (by simp))]
          rw [ih (by simp) (fun x hx => hnf x (List.mem_cons_of_mem p hx))]

theorem count_joinNL : ∀ parts : List (List Char), parts ≠ [] →
    (∀ p ∈ parts, '\n' ∉ p) → (joinNL parts).count '\n' = parts.length - 1 := by
  intro parts
  induction parts with
  | nil => intro h _; exact absurd rfl h
  | cons p rest ih =>
      intro _ hnf
      cases rest with
      | nil =>
          show p.count '\n' = 0
          exact List.count_eq_zero.mpr (hnf p (by simp))
      | cons q qs =>
          show (p ++ '\n' :: joinNL (q :: qs)).count '\n' = _
          rw [List.count_append, List.count_cons]
          rw [List.count_eq_zero.mpr (hnf p (by simp))]
          rw [ih (by simp) (fun x hx => hnf x (List.mem_cons_of_mem p hx))]
          simp

theorem not_mem_rewriteByMatcher {m : Nat → List Char → Option (Nat × List Char)}
    {c : Char} {s : List Char} {pos : Nat}
    (hrep : ∀ pos suffix len repl, m pos suffix = some (len, repl) → c ∉ repl)
    (hs : c ∉ s) : c ∉ rewriteByMatcher m pos s :=
  rewriteByMatcher_not_mem hrep s.length s pos (le_refl _) hs

theorem not_mem_jsTrim {c : Char} {s : List Char} (hs : c ∉ s) : c ∉ jsTrim s := by
  unfold jsTrim
  intro hm
  rw [List.mem_reverse] at hm
  have h1 := (List.dropWhile_sublist jsWhitespace).subset hm
  rw [List.mem_reverse] at h1
  exact hs ((List.dropWhile_sublist jsWhitespace).subset h1)

theorem nl_not_mem_canonicalUser : '\n' ∉ canonicalUser := by decide

theorem not_mem_replaceCI {needle acc : List Char} (hacc : '\n' ∉ acc) :
    '\n' ∉ replaceCI needle canonicalUser acc := by
  apply not_mem_rewriteByMatcher ?_ hacc
  intro pos suffix len repl h
  split at h
  · simp only [Option.some.injEq, Prod.mk.injEq] at h
    rw [← h.2]
    exact nl_not_mem_canonicalUser
  · simp at h

theorem not_mem_applyNameVariations {s : List Char} (hs : '\n' ∉ s) :
    '\n' ∉ applyNameVariations s := by
  unfold applyNameVariations
  generalize nameVariations = l
  induction l generalizing s with
  | nil => exact hs
  | cons n rest ih =>
      simp only [List.foldl_cons]
      exact ih (not_mem_replaceCI hs)

theorem not_mem_processPart {f : List Char → List Char}
    (hf : ∀ s : List Char, '\n' ∉ s → '\n' ∉ f s)
    {part : List Char} (hp : '\n' ∉ part) : '\n' ∉ processPart f part := by
  unfold processPart
  split
  · apply not_mem_rewriteByMatcher
    · intro pos suffix len repl h
      cases hb : matchOldTechAt suffix with
      | none => simp [hb] at h
      | some n =>
          simp only [hb, Option.map_some', Option.some.injEq, Prod.mk.injEq] at h
          rw [← h.2]
          exact nl_not_mem_canonicalUser
    · apply not_mem_applyNameVariations
      unfold cleanupArtifacts
      apply not_mem_jsTrim
      apply not_mem_rewriteByMatcher
      · intro pos suffix len repl h
        split at h
        · simp only [Option.some.injEq, Prod.mk.injEq] at h
          rw [← h.2]
          simp
        · simp at h
      · apply not_mem_rewriteByMatcher
        · intro pos suffix len repl h
          split at h
          · simp only [Option.some.injEq, Prod.mk.injEq] at h
            rw [← h.2]
            simp
          · simp at h
        · apply not_mem_rewriteByMatcher
          · intro pos suffix len repl h
            cases hb : matchBrAt suffix with
            | none => simp [hb] at h
            | some n =>
                simp only [hb, Option.map_some', Option.some.injEq, Prod.mk.injEq] at h
                rw [← h.2]
                simp
          · exact hf part hp
  · simp

/-- C3: for every input containing a newline, the line segmenter's output has
exactly the same number of newline characters as the input, and every blank
input line (empty or whitespace-only) yields the empty output line at the
same line index. The external translator f is assumed to return newline-free
text for a newline-free segment. -/
theorem C3_segmenter (f : List Char → List Char)
    (hf : ∀ s : List Char, '\n' ∉ s → '\n' ∉ f s)
    (text : List Char) (ht : '\n' ∈ text) :
    (segmentTranslate f text).count '\n' = text.count '\n' ∧
    (∀ (i : Nat) (part : List Char), (splitNL text)[i]? = some part → jsTrim part = [] →
      (splitNL (segmentTranslate f text))[i]? = some ([] : List Char)) := by
  have hparts_nf := splitNL_parts_nf text
  have hmap_nf : ∀ p ∈ (splitNL text).map (processPart f), '\n' ∉ p := by
    intro p hp
    rw [List.mem_map] at hp
    obtain ⟨q, hq, hpq⟩ := hp
    rw [← hpq]
    exact not_mem_processPart hf (hparts_nf q hq)
  have hmap_ne : (splitNL text).map (processPart f) ≠ [] := by
    intro h
    exact splitNL_ne_nil text (List.map_eq_nil_iff.mp h)
  have hsplit : splitNL (segmentTranslate f text) = (splitNL text).map (processPart f) := by
    unfold segmentTranslate
    exact splitNL_joinNL _ hmap_ne hmap_nf
  constructor
  · unfold segmentTranslate
    rw [count_joinNL _ hmap_ne hmap_nf]
    rw [List.length_map, splitNL_length]
    simp
  · intro i part hi hblank
    rw [hsplit]
    rw [List.getElem?_map, hi]
    simp only [Option.map_some', Option.some.injEq]
    unfold processPart
    rw [if_neg (by simp [hblank])]

/-! ## Character and position toolkit -/

theorem char_toNat_ofNat {n : Nat} (h : n < 55296) : (Char.ofNat n).toNat = n := by
  unfold Char.ofNat
  rw [dif_pos (Or.inl h)]
  rfl

theorem char_le_toNat {a b : Char} (h : a ≤ b) : a.toNat ≤ b.toNat := by
  rw [Char.le_def] at h
  exact h

theorem charLower_percent {c : Char} (h : charLower c = '%') : c = '%' := by
  unfold charLower at h
  split at h
  · next hAZ =>
      exfalso
      have hub : c.toNat ≤ 90 := by
        have := char_le_toNat hAZ.2
        simpa [show 'Z'.toNat = 90 from rfl] using this
      have hlb : 65 ≤ c.toNat := by
        have := char_le_toNat hAZ.1
        simpa [show 'A'.toNat = 65 from rfl] using this
      have hv : (Char.ofNat (c.toNat + 32)).toNat = c.toNat + 32 :=
        char_toNat_ofNat (by omega)
      have h37 : c.toNat + 32 = 37 := by
        rw [← hv, h]
        rfl
      omega
  · exact h

theorem mem_of_getElem?_char {l : List Char} {n : Nat} {c : Char}
    (h : l[n]? = some c) : c ∈ l := by
  obtain ⟨hlt, he⟩ := List.getElem?_eq_some_iff.mp h
  exact he ▸ List.getElem_mem hlt

theorem isPrefixOf_getElem {p t : List Char} (h : p.isPrefixOf t = true)
    {j : Nat} (hj : j < p.length) : t[j]? = p[j]? := by
  rw [List.isPrefixOf_iff_prefix] at h
  obtain ⟨r, hr⟩ := h
  rw [← hr]
  exact List.getElem?_append_left hj

theorem startsWithCI_getElem {p t : List Char} (h : startsWithCI p t = true)
    {j : Nat} (hj : j < p.length) :
    (t[j]?).map charLower = (p[j]?).map charLower := by
  unfold startsWithCI at h
  have := isPrefixOf_getElem h (by simpa using hj)
  rw [List.getElem?_map, List.getElem?_map] at this
  exact this

/-- A matcher guarded by a case-insensitive or exact %-initial pattern yields
no match at a position whose character is not a percent sign. -/
theorem startsWithCI_percent_head {t : List Char}
    (hhead : ∀ c, t[0]? = some c → c ≠ '%') {p : List Char}
    (hp : p[0]? = some '%') : startsWithCI p t = false := by
  by_contra hcontra
  rw [Bool.not_eq_false] at hcontra
  have h0 := startsWithCI_getElem hcontra
    (show 0 < p.length by cases p <;> simp_all)
  rw [hp] at h0
  cases ht : t[0]? with
  | none => rw [ht] at h0; simp at h0
  | some c =>
      rw [ht] at h0
      simp only [Option.map_some', Option.some.injEq] at h0
      have : charLower '%' = '%' := by decide
      rw [this] at h0
      exact hhead c ht (charLower_percent h0)

theorem isPrefixOf_percent_head {t : List Char}
    (hhead : ∀ c, t[0]? = some c → c ≠ '%') {p : List Char}
    (hp : p[0]? = some '%') : p.isPrefixOf t = false := by
  by_contra hcontra
  rw [Bool.not_eq_false] at hcontra
  have h0 := isPrefixOf_getElem hcontra
    (show 0 < p.length by cases p <;> simp_all)
  rw [hp] at h0
  exact hhead '%' h0 rfl

/-- takeWhile and drop through a satisfied block up to a failing character. -/
theorem takeWhile_append_stop {p : Char → Bool} :
    ∀ (x : List Char) (c : Char) (y : List Char), (∀ a ∈ x, p a = true) → p c = false →
      (x ++ c :: y).takeWhile p = x ∧ (x ++ c :: y).drop x.length = c :: y := by
  intro x
  induction x with
  | nil =>
      intro c y _ hc
      constructor
      · simp [List.takeWhile_cons, hc]
      · simp
  | cons a x' ih =>
      intro c y hx hc
      have ha : p a = true := hx a (by simp)
      obtain ⟨h1, h2⟩ := ih c y (fun b hb => hx b (by simp [hb])) hc
      constructor
      · simp only [List.cons_append, List.takeWhile_cons, ha, if_true, h1]
      · simpa using h2

theorem takeWhile_all {p : Char → Bool} :
    ∀ {l : List Char}, (∀ c ∈ l, p c = true) → l.takeWhile p = l := by
  intro l
  induction l with
  | nil => intro _; rfl
  | cons c rest ih =>
      intro h
      simp only [List.takeWhile_cons, h c (by simp), if_true]
      rw [ih (fun x hx => h x (by simp [hx]))]

theorem letter_isWordChar {c : Char} (h : isAsciiLetter c = true) :
    isWordChar c = true := by
  simp [isWordChar, isAsciiAlnum, h]

theorem quoteNormalize_append (x y : List Char) :
    quoteNormalize (x ++ y) = quoteNormalize x ++ quoteNormalize y := by
  simp [quoteNormalize]

theorem getElem?_drop_char (l : List Char) (n m : Nat) :
    (l.drop n)[m]? = l[n + m]? := by
  rw [List.getElem?_drop]

/-- No %user…na% match at a position whose character is not a percent sign. -/
theorem userVariantMatchAt_none_of_head {t : List Char}
    (hhead : ∀ c, t[0]? = some c → c ≠ '%') : userVariantMatchAt t = none := by
  unfold userVariantMatchAt
  rw [startsWithCI_percent_head hhead (by decide)]
  simp

/-- No honorific-pattern match at a position whose character is not a percent
sign. -/
theorem matchHonorificAt_none_of_head {t : List Char}
    (hhead : ∀ c, t[0]? = some c → c ≠ '%') : matchHonorificAt t = none := by
  unfold matchHonorificAt
  rw [startsWithCI_percent_head hhead (by decide)]
  simp

theorem startsWithCI_extend {p x : List Char} (z : List Char)
    (hlow : x.map charLower = x) (hpre : (p.map charLower).isPrefixOf x = true) :
    startsWithCI p (x ++ z) = true := by
  unfold startsWithCI
  rw [List.isPrefixOf_iff_prefix] at hpre ⊢
  rw [List.map_append, hlow]
  exact hpre.trans (List.prefix_append x _)

/-- The collapse regex matches exactly the canonical marker at its own start,
whatever follows. -/
theorem userVariantMatchAt_canonical (z : List Char) :
    userVariantMatchAt (canonicalUser ++ z) = some 24 := by
  have hcu : canonicalUser =
      "%user".toList ++ ("nameusernameuserna".toList ++ ['%']) := by decide
  unfold userVariantMatchAt
  rw [startsWithCI_extend z (by decide) (by decide)]
  simp only [if_true]
  have hdrop : (canonicalUser ++ z).drop 5 =
      "nameusernameuserna".toList ++ '%' :: z := by
    rw [hcu]
    rw [List.append_assoc]
    have h5 : (5 : Nat) = "%user".toList.length := by decide
    rw [h5, List.drop_left]
    simp
  rw [hdrop]
  obtain ⟨ht, hd⟩ := takeWhile_append_stop (p := fun c => decide (c ≠ '%'))
    "nameusernameuserna".toList '%' z (by decide) (by decide)
  rw [ht]
  have hte : ("nameusernameuserna".toList ++ '%' :: z)["nameusernameuserna".toList.length]? =
      some '%' := by
    rw [List.getElem?_append_right (le_refl _)]
    simp
  rw [if_pos]
  · decide
  · refine ⟨hte, by decide, by decide, by decide⟩

theorem honorific_word_facts {w : List Char} (hwmem : w ∈ commonHonorifics) :
    w ≠ [] ∧ (∀ c ∈ w, isAsciiLetter c = true) ∧ w.map charLower = w ∧
      (∀ c ∈ w, jsWhitespace c = false) := by
  simp only [commonHonorifics, List.mem_map] at hwmem
  obtain ⟨s, hs, hw⟩ := hwmem
  subst hw
  simp only [List.mem_cons, List.mem_singleton, List.not_mem_nil, or_false] at hs
  rcases hs with rfl | rfl | rfl | rfl | rfl | rfl | rfl <;>
    exact ⟨by decide, by decide, by decide, by decide⟩

/-- The honorific regex at the canonical marker followed directly by a
recognized honorific word and a non-word boundary: it consumes marker+word and
replaces them by marker-hyphen-word. -/
theorem matchHonorificAt_canonical_hon {w b : List Char}
    (hwmem : w ∈ commonHonorifics)
    (hb : ∀ c, b[0]? = some c → isWordChar c = false) :
    matchHonorificAt (canonicalUser ++ (w ++ b)) =
      some (24 + w.length, canonicalUser ++ '-' :: w) := by
  obtain ⟨hwne, hwlet, hwlow, hwws⟩ := honorific_word_facts hwmem
  have h24 : canonicalUser.length = 24 := by decide
  unfold matchHonorificAt
  rw [startsWithCI_extend (w ++ b) (by decide) (by decide)]
  simp only [if_true]
  have hdrop24 : (canonicalUser ++ (w ++ b)).drop 24 = w ++ b := by
    rw [← h24, List.drop_left]
  rw [hdrop24]
  have hws : (w ++ b).takeWhile jsWhitespace = [] := by
    cases w with
    | nil => exact absurd rfl hwne
    | cons c wt =>
        simp only [List.cons_append, List.takeWhile_cons]
        rw [hwws c (by simp)]
        simp
  rw [hws]
  simp only [List.length_nil, List.drop_zero]
  have hlet : (w ++ b).takeWhile isAsciiLetter = w := by
    cases b with
    | nil => simpa using takeWhile_all (fun c hc => hwlet c hc)
    | cons c bs =>
        have hc : isAsciiLetter c = false := by
          by_contra hcc
          rw [Bool.not_eq_false] at hcc
          have h1 := hb c (by simp)
          rw [letter_isWordChar hcc] at h1
          simp at h1
        exact (takeWhile_append_stop w c bs (fun a hx => hwlet a hx) hc).1
  rw [hlet]
  have hbnd : ((w ++ b)[w.length]?) = b[0]? := by
    rw [List.getElem?_append_right (le_refl _)]
    simp
  rw [hbnd]
  have hbok : (match b[0]? with
      | some c => !isWordChar c
      | none => true) = true := by
    cases hb0 : b[0]? with
    | none => rfl
    | some c =>
        simp only
        rw [hb c hb0]
        rfl
  rw [hbok]
  rw [if_neg (by
    intro hcnd
    rcases hcnd with h1 | h1
    · exact hwne (List.eq_nil_of_length_eq_zero h1)
    · simp at h1)]
  have htake : (w ++ b).take w.length = w := List.take_left w b
  rw [htake, hwlow]
  rw [if_pos (show commonHonorifics.contains w = true from
    List.elem_eq_true_of_mem hwmem)]
  have htake24 : (canonicalUser ++ (w ++ b)).take 24 = canonicalUser := by
    rw [← h24, List.take_left]
  rw [htake24]

/-- In a %-free context around a single canonical marker, percent signs sit
exactly at the marker's two ends. -/
theorem percent_positions {a z : List Char} (ha : '%' ∉ a) (hz : '%' ∉ z) :
    ∀ j, ((a ++ canonicalUser) ++ z)[j]? = some '%' →
      j = a.length ∨ j = a.length + 23 := by
  intro j hj
  by_cases h1 : j < a.length
  · exfalso
    rw [List.append_assoc, List.getElem?_append_left h1] at hj
    exact ha (mem_of_getElem?_char hj)
  · by_cases h2 : j < a.length + 24
    · rw [List.append_assoc, List.getElem?_append_right (by omega)] at hj
      rw [List.getElem?_append_left (by
        have : canonicalUser.length = 24 := by decide
        omega)] at hj
      have hdec : ∀ o : Nat, o < 24 → canonicalUser[o]? = some '%' →
          o = 0 ∨ o = 23 := by decide
      have := hdec (j - a.length) (by omega) hj
      omega
    · exfalso
      rw [List.getElem?_append_right (by
        have : (a ++ canonicalUser).length = a.length + 24 := by
          simp only [List.length_append]
          have : canonicalUser.length = 24 := by decide
          omega
        omega)] at hj
      exact hz (mem_of_getElem?_char hj)

theorem s1_dash_at {a z : List Char} :
    ((a ++ canonicalUser) ++ ('-' :: z))[a.length + 24]? = some '-' := by
  rw [List.getElem?_append_right (by
    simp only [List.length_append]
    have : canonicalUser.length = 24 := by decide
    omega)]
  have hlen : (a ++ canonicalUser).length = a.length + 24 := by
    simp only [List.length_append]
    have : canonicalUser.length = 24 := by decide
    omega
  rw [hlen]
  simp

theorem rest_of_drop {s : List Char} {i : Nat} {c : Char} {rest : List Char}
    (h : s.drop i = c :: rest) : rest = s.drop (i + 1) := by
  have h1 : s.drop (i + 1) = (s.drop i).drop 1 := by
    rw [← List.drop_drop]
  rw [h1, h]
  rfl

theorem spacingPass1_skip {a w b : List Char} (ha : '%' ∉ a) (hw : '%' ∉ w)
    (hb : '%' ∉ b) :
    spacingPass1 ((a ++ canonicalUser) ++ ('-' :: (w ++ b))) =
      (a ++ canonicalUser) ++ ('-' :: (w ++ b)) := by
  have hz : '%' ∉ '-' :: (w ++ b) := by
    intro hm
    rcases List.mem_cons.mp hm with h1 | h2
    · simp at h1
    · rcases List.mem_append.mp h2 with h3 | h4
      · exact hw h3
      · exact hb h4
  unfold spacingPass1
  apply rewriteByMatcher_no_match
  intro i _
  cases hdrop : ((a ++ canonicalUser) ++ ('-' :: (w ++ b))).drop i with
  | nil => rfl
  | cons c rest =>
      dsimp only
      by_cases hpre : canonicalUser.isPrefixOf rest = true
      · have hrest := rest_of_drop hdrop
        have hpct : ((a ++ canonicalUser) ++ ('-' :: (w ++ b)))[i + 1]? = some '%' := by
          have h0 := isPrefixOf_getElem hpre (show 0 < canonicalUser.length by decide)
          rw [show canonicalUser[0]? = some '%' from by decide] at h0
          rw [hrest, getElem?_drop_char] at h0
          simpa using h0
        rcases percent_positions ha hz (i + 1) hpct with hA | hB
        · have hr24 : rest[24]? = some '-' := by
            rw [hrest, getElem?_drop_char]
            have : i + 1 + 24 = a.length + 24 := by omega
            rw [this]
            exact s1_dash_at
          split
          · rw [hr24]
            simp
            decide
          · rfl
        · exfalso
          have h1 := isPrefixOf_getElem hpre (show 1 < canonicalUser.length by decide)
          rw [show canonicalUser[1]? = some 'u' from by decide] at h1
          rw [hrest, getElem?_drop_char] at h1
          have : i + 1 + 1 = a.length + 24 := by omega
          rw [this, s1_dash_at] at h1
          simp at h1
      · rw [if_neg]
        intro hcnd
        exact hpre hcnd.2

theorem spacingPass2_skip {a w b : List Char} (ha : '%' ∉ a) (hw : '%' ∉ w)
    (hb : '%' ∉ b) :
    spacingPass2 ((a ++ canonicalUser) ++ ('-' :: (w ++ b))) =
      (a ++ canonicalUser) ++ ('-' :: (w ++ b)) := by
  have hz : '%' ∉ '-' :: (w ++ b) := by
    intro hm
    rcases List.mem_cons.mp hm with h1 | h2
    · simp at h1
    · rcases List.mem_append.mp h2 with h3 | h4
      · exact hw h3
      · exact hb h4
  unfold spacingPass2
  apply rewriteByMatcher_no_match
  intro i _
  cases hdrop : ((a ++ canonicalUser) ++ ('-' :: (w ++ b))).drop i with
  | nil => rfl
  | cons c rest =>
      dsimp only
      by_cases hpre : canonicalUser.isPrefixOf rest = true
      · have hrest := rest_of_drop hdrop
        have hpct : ((a ++ canonicalUser) ++ ('-' :: (w ++ b)))[i + 1]? = some '%' := by
          have h0 := isPrefixOf_getElem hpre (show 0 < canonicalUser.length by decide)
          rw [show canonicalUser[0]? = some '%' from by decide] at h0
          rw [hrest, getElem?_drop_char] at h0
          simpa using h0
        rcases percent_positions ha hz (i + 1) hpct with hA | hB
        · have hr24 : rest[24]? = some '-' := by
            rw [hrest, getElem?_drop_char]
            have : i + 1 + 24 = a.length + 24 := by omega
            rw [this]
            exact s1_dash_at
          rw [if_neg]
          intro hcnd
          exact hcnd.2.2 hr24
        · exfalso
          have h1 := isPrefixOf_getElem hpre (show 1 < canonicalUser.length by decide)
          rw [show canonicalUser[1]? = some 'u' from by decide] at h1
          rw [hrest, getElem?_drop_char] at h1
          have : i + 1 + 1 = a.length + 24 := by omega
          rw [this, s1_dash_at] at h1
          simp at h1
      · rw [if_neg]
        intro hcnd
        exact hpre hcnd.2.1

theorem spacingPass3_skip {a w b : List Char} (ha : '%' ∉ a) (hw : '%' ∉ w)
    (hb : '%' ∉ b) :
    spacingPass3 ((a ++ canonicalUser) ++ ('-' :: (w ++ b))) =
      (a ++ canonicalUser) ++ ('-' :: (w ++ b)) := by
  have hz : '%' ∉ '-' :: (w ++ b) := by
    intro hm
    rcases List.mem_cons.mp hm with h1 | h2
    · simp at h1
    · rcases List.mem_append.mp h2 with h3 | h4
      · exact hw h3
      · exact hb h4
  unfold spacingPass3
  apply rewriteByMatcher_no_match
  intro i _
  by_cases hpre : canonicalUser.isPrefixOf
      (((a ++ canonicalUser) ++ ('-' :: (w ++ b))).drop i) = true
  · have hpct : ((a ++ canonicalUser) ++ ('-' :: (w ++ b)))[i]? = some '%' := by
      have h0 := isPrefixOf_getElem hpre (show 0 < canonicalUser.length by decide)
      rw [show canonicalUser[0]? = some '%' from by decide] at h0
      rw [getElem?_drop_char] at h0
      simpa using h0
    rcases percent_positions ha hz i hpct with hA | hB
    · have hr24 : (((a ++ canonicalUser) ++ ('-' :: (w ++ b))).drop i)[24]? =
          some '-' := by
        rw [getElem?_drop_char]
        have : i + 24 = a.length + 24 := by omega
        rw [this]
        exact s1_dash_at
      split
      · rw [hr24]
        simp
        decide
      · rfl
    · exfalso
      have h1 := isPrefixOf_getElem hpre (show 1 < canonicalUser.length by decide)
      rw [show canonicalUser[1]? = some 'u' from by decide] at h1
      rw [getElem?_drop_char] at h1
      have : i + 1 = a.length + 24 := by omega
      rw [this, s1_dash_at] at h1
      simp at h1
  · rw [if_neg]
    intro hcnd
    exact hpre hcnd.1

/-- The variant-collapse pass fixes a string that is a canonical marker in a
%-free context. -/
theorem replaceUserVariants_fixed {a y : List Char} (ha : '%' ∉ a) (hy : '%' ∉ y) :
    replaceUserVariants canonicalUser (a ++ canonicalUser ++ y) =
      a ++ canonicalUser ++ y := by
  have h24 : canonicalUser.length = 24 := by decide
  unfold replaceUserVariants
  refine rewriteByMatcher_single (by decide) ?_ ?_ ?_
  · intro i hi
    have hhead : ∀ c, ((a ++ (canonicalUser ++ y)).drop i)[0]? = some c → c ≠ '%' := by
      intro c hc hcp
      subst hcp
      rw [getElem?_drop_char] at hc
      rw [List.getElem?_append_left (by omega)] at hc
      exact ha (mem_of_getElem?_char hc)
    simp [userVariantMatchAt_none_of_head hhead]
  · rw [userVariantMatchAt_canonical]
    simp [Option.map_some', h24]
  · intro i hi
    have hhead : ∀ c, (y.drop i)[0]? = some c → c ≠ '%' := by
      intro c hc hcp
      subst hcp
      rw [getElem?_drop_char] at hc
      exact hy (mem_of_getElem?_char hc)
    simp [userVariantMatchAt_none_of_head hhead]

/-- The honorific pass attaches the recognized word after the marker with a
hyphen when the surrounding context is %-free and the word ends at a word
boundary. -/
theorem honorificPass_attach {a w b : List Char} (ha : '%' ∉ a) (hb : '%' ∉ b)
    (hwmem : w ∈ commonHonorifics)
    (hbhead : ∀ c, b[0]? = some c → isWordChar c = false) :
    honorificPass (a ++ canonicalUser ++ (w ++ b)) =
      a ++ (canonicalUser ++ '-' :: w) ++ b := by
  have h24 : canonicalUser.length = 24 := by decide
  have hassoc : a ++ canonicalUser ++ (w ++ b) = a ++ (canonicalUser ++ w) ++ b := by
    simp
  rw [hassoc]
  unfold honorificPass
  refine rewriteByMatcher_single (by
    intro h0
    have hl := congrArg List.length h0
    rw [List.length_append, h24] at hl
    simp at hl) ?_ ?_ ?_
  · intro i hi
    have hhead : ∀ c, ((a ++ (canonicalUser ++ (w ++ b))).drop i)[0]? = some c →
        c ≠ '%' := by
      intro c hc hcp
      subst hcp
      rw [getElem?_drop_char] at hc
      rw [List.getElem?_append_left (by omega)] at hc
      exact ha (mem_of_getElem?_char hc)
    simp [matchHonorificAt_none_of_head hhead]
  · rw [List.append_assoc, matchHonorificAt_canonical_hon hwmem hbhead]
    simp [h24]
  · intro i hi
    have hhead : ∀ c, (b.drop i)[0]? = some c → c ≠ '%' := by
      intro c hc hcp
      subst hcp
      rw [getElem?_drop_char] at hc
      exact hb (mem_of_getElem?_char hc)
    simp [matchHonorificAt_none_of_head hhead]

/-- Quote normalization is the identity on the recognized honorific words. -/
theorem quoteNormalize_honorific {w : List Char} (hwmem : w ∈ commonHonorifics) :
    quoteNormalize w = w := by
  simp only [commonHonorifics, List.mem_map] at hwmem
  obtain ⟨s, hs, hw⟩ := hwmem
  subst hw
  simp only [List.mem_cons, List.mem_singleton, List.not_mem_nil, or_false] at hs
  rcases hs with rfl | rfl | rfl | rfl | rfl | rfl | rfl <;> decide

/-- C7, amended: when a single canonical username marker is immediately
followed by a recognized honorific word ending at a non-word boundary, and the
rest of the string contains no percent sign (ruling out overlapping
marker-shaped substrings such as the one in the counterexample), the final
normalization of translateObjectValues attaches the honorific to the marker
with a hyphen and no space, leaves the %-free context otherwise intact up to
quote normalization, and the output contains the hyphenated marker. -/
theorem C7_honorific_amended {a w b : List Char}
    (ha : '%' ∉ a) (hb : '%' ∉ b) (hwmem : w ∈ commonHonorifics)
    (hbhead : ∀ c, b[0]? = some c → isWordChar c = false) :
    finalNormalize (a ++ canonicalUser ++ (w ++ b)) =
      quoteNormalize a ++ (canonicalUser ++ '-' :: w) ++ quoteNormalize b ∧
    hasSubstr (canonicalUser ++ '-' :: w)
      (finalNormalize (a ++ canonicalUser ++ (w ++ b))) = true := by
  have hwlet := (honorific_word_facts hwmem).2.1
  have hw : '%' ∉ w := fun hm => absurd (hwlet '%' hm) (by decide)
  have hy : '%' ∉ w ++ b := by
    intro hm
    rcases List.mem_append.mp hm with h1 | h2
    · exact hw h1
    · exact hb h2
  have st0 := replaceUserVariants_fixed ha hy
  have st1 := honorificPass_attach ha hb hwmem hbhead
  have hassoc2 : a ++ (canonicalUser ++ '-' :: w) ++ b =
      (a ++ canonicalUser) ++ ('-' :: (w ++ b)) := by simp
  have hmain : finalNormalize (a ++ canonicalUser ++ (w ++ b)) =
      quoteNormalize a ++ (canonicalUser ++ '-' :: w) ++ quoteNormalize b := by
    unfold finalNormalize
    rw [st0, st1, hassoc2, spacingPass1_skip ha hw hb, spacingPass2_skip ha hw hb,
      spacingPass3_skip ha hw hb]
    have h1 : (a ++ canonicalUser) ++ ('-' :: (w ++ b)) =
        a ++ (canonicalUser ++ '-' :: w) ++ b := by simp
    rw [h1, quoteNormalize_append, quoteNormalize_append]
    have h2 : quoteNormalize (canonicalUser ++ '-' :: w) = canonicalUser ++ '-' :: w := by
      have h3 : canonicalUser ++ '-' :: w = (canonicalUser ++ ['-']) ++ w := by simp
      rw [h3, quoteNormalize_append, quoteNormalize_honorific hwmem,
        show quoteNormalize (canonicalUser ++ ['-']) = canonicalUser ++ ['-'] from
          by decide]
    rw [h2]
  refine ⟨hmain, ?_⟩
  rw [hmain, hasSubstr_iff]
  refine ⟨(quoteNormalize a).length, ?_⟩
  have h4 : quoteNormalize a ++ (canonicalUser ++ '-' :: w) ++ quoteNormalize b =
      quoteNormalize a ++ ((canonicalUser ++ '-' :: w) ++ quoteNormalize b) := by
    simp
  rw [h4, List.drop_left]
  exact List.prefix_append _ _

/-- Witness for the amended C7 at "Hi " ++ marker ++ "san, ok": the honorifics
list contains "san", the boundary after it is a comma, and the output attaches
"-san" to the marker. -/
theorem C7_honorific_amended_witness :
    ('%' ∉ "Hi ".toList) ∧ ("san".toList ∈ commonHonorifics) ∧
    finalNormalize ("Hi ".toList ++ canonicalUser ++
        ("san".toList ++ ", ok".toList)) =
      quoteNormalize "Hi ".toList ++ (canonicalUser ++ '-' :: "san".toList) ++
        quoteNormalize ", ok".toList ∧
    hasSubstr (canonicalUser ++ '-' :: "san".toList)
      (finalNormalize ("Hi ".toList ++ canonicalUser ++
        ("san".toList ++ ", ok".toList))) = true := by
  have h := C7_honorific_amended (a := "Hi ".toList) (w := "san".toList)
    (b := ", ok".toList) (by decide) (by decide) (by decide)
    (fun c hc => by
      injection (show some ',' = some c from hc) with h1
      exact h1 ▸ (by decide : isWordChar ',' = false))
  exact ⟨by decide, by decide, h.1, h.2⟩


/-- Witness for C3 on "a\n\nb" with the identity translator: two newlines in,
two newlines out, and the blank middle line stays blank. -/
theorem C3_witness :
    (segmentTranslate id "a\n\nb".toList).count '\n' = "a\n\nb".toList.count '\n' ∧
    (splitNL (segmentTranslate id "a\n\nb".toList))[1]? = some ([] : List Char) := by
  have h := C3_segmenter id (fun s hs => hs) "a\n\nb".toList (by decide)
  exact ⟨h.1, h.2 1 [] (by decide) (by decide)⟩

/-! ## Occurrence toolkit for the C1 round-trip analysis -/

theorem occursAt_getElem {p s : List Char} {i : Nat} (h : occursAt p s i) :
    ∀ j, j < p.length → s[i + j]? = p[j]? := by
  intro j hj
  obtain ⟨r, hr⟩ := h
  rw [← getElem?_drop_char, ← hr, List.getElem?_append_left hj]

theorem occursAt_of_getElems :
    ∀ (p s : List Char) (i : Nat),
      (∀ j, j < p.length → s[i + j]? = p[j]?) → occursAt p s i := by
  intro p
  induction p with
  | nil => intro s i _; exact List.nil_prefix
  | cons c p' ih =>
      intro s i h
      have h0 : s[i]? = some c := by
        have := h 0 (by simp)
        simpa using this
      obtain ⟨hlt, he⟩ := List.getElem?_eq_some_iff.mp h0
      have hdrop : s.drop i = c :: s.drop (i + 1) := by
        rw [List.drop_eq_getElem_cons hlt, he]
      unfold occursAt
      rw [hdrop]
      refine List.cons_prefix_cons.mpr ⟨rfl, ?_⟩
      exact ih s (i + 1) (fun j hj => by
        have := h (j + 1) (by simpa using Nat.succ_lt_succ hj)
        rw [show i + (j + 1) = i + 1 + j by omega] at this
        simpa using this)

theorem hasSubstr_of_occursAt {p s : List Char} {i : Nat} (h : occursAt p s i) :
    hasSubstr p s = true := hasSubstr_iff.mpr ⟨i, h⟩

theorem drop_prefix_drop_append (x y : List Char) (i : Nat) :
    x.drop i <+: (x ++ y).drop i := by
  by_cases hle : i ≤ x.length
  · rw [List.drop_append_of_le_length hle]
    exact List.prefix_append _ _
  · have : x.drop i = [] := List.drop_eq_nil_of_le (by omega)
    rw [this]
    exact List.nil_prefix

theorem hasSubstr_mono_left {p x y : List Char} (h : hasSubstr p x = true) :
    hasSubstr p (x ++ y) = true := by
  rw [hasSubstr_iff] at h ⊢
  obtain ⟨i, hi⟩ := h
  exact ⟨i, hi.trans (drop_prefix_drop_append x y i)⟩

theorem hasSubstr_mono_right {p x y : List Char} (h : hasSubstr p y = true) :
    hasSubstr p (x ++ y) = true := by
  rw [hasSubstr_iff] at h ⊢
  obtain ⟨i, hi⟩ := h
  refine ⟨x.length + i, ?_⟩
  rwa [List.drop_append]

theorem phStr_head6 (k : Nat) :
    ∀ j, j < 6 → (phStr k)[j]? = ("___TAG".toList)[j]? := by
  intro j hj
  unfold phStr
  rw [List.append_assoc, List.getElem?_append_left (by
    have : ("___TAG".toList).length = 6 := by decide
    omega)]

theorem phStr_length (k : Nat) : 10 ≤ (phStr k).length := by
  have hd : 0 < (natDigits k).length :=
    List.length_pos.mpr (natDigits_ne_nil k)
  unfold phStr
  simp only [List.length_append]
  have h6 : ("___TAG".toList).length = 6 := by decide
  have h3 : ("___".toList).length = 3 := by decide
  omega

theorem phStr_T_only (k : Nat) : ∀ j, (phStr k)[j]? = some 'T' → j = 3 := by
  intro j hj
  have h6 : ("___TAG".toList).length = 6 := by decide
  have h3 : ("___".toList).length = 3 := by decide
  by_cases hlt : j < 6
  · have := phStr_head6 k j hlt
    rw [this] at hj
    have hdec : ∀ j, j < 6 → ("___TAG".toList)[j]? = some 'T' → j = 3 := by decide
    exact hdec j hlt hj
  · exfalso
    unfold phStr at hj
    rw [List.append_assoc, List.getElem?_append_right (by omega)] at hj
    rw [h6] at hj
    by_cases hd : j - 6 < (natDigits k).length
    · rw [List.getElem?_append_left hd] at hj
      have := natDigits_digits k 'T' (mem_of_getElem?_char hj)
      exact absurd this (by decide)
    · rw [List.getElem?_append_right (by omega)] at hj
      have := mem_of_getElem?_char hj
      have : 'T' ∈ "___".toList := this
      simp at this

/-- A pattern occurrence cannot straddle a junction whose left side ends in a
character that is not in the pattern. -/
theorem hasSubstr_append_false_of_last {p x y : List Char}
    (hx : hasSubstr p x = false) (hy : hasSubstr p y = false)
    (hlast : ∀ c, x.getLast? = some c → c ∉ p) :
    hasSubstr p (x ++ y) = false := by
  by_contra hc
  rw [Bool.not_eq_false, hasSubstr_iff] at hc
  obtain ⟨i, hi⟩ := hc
  have hg := occursAt_getElem hi
  by_cases h1 : i + p.length ≤ x.length
  · have hin : occursAt p x i :=
      occursAt_of_getElems p x i (fun j hj => by
        have := hg j hj
        rwa [List.getElem?_append_left (by omega)] at this)
    rw [hasSubstr_of_occursAt hin] at hx
    exact absurd hx (by simp)
  · by_cases h2 : x.length ≤ i
    · have hin : occursAt p y (i - x.length) :=
        occursAt_of_getElems p y (i - x.length) (fun j hj => by
          have := hg j hj
          rw [List.getElem?_append_right (by omega)] at this
          rwa [show i + j - x.length = i - x.length + j by omega] at this)
      rw [hasSubstr_of_occursAt hin] at hy
      exact absurd hy (by simp)
    · have hxne : x ≠ [] := by
        intro h0
        subst h0
        simp at h2
      obtain ⟨c, hcl⟩ := Option.ne_none_iff_exists'.mp
        (mt List.getLast?_eq_none_iff.mp hxne)
      have hcl2 : x[x.length - 1]? = some c := by
        rw [← List.getLast?_eq_getElem?]
        exact hcl
      have hj : x.length - 1 - i < p.length := by omega
      have hge := hg (x.length - 1 - i) hj
      rw [show i + (x.length - 1 - i) = x.length - 1 by omega] at hge
      rw [List.getElem?_append_left (by omega)] at hge
      rw [hcl2] at hge
      exact hlast c hcl (mem_of_getElem?_char hge.symm)

/-- A pattern occurrence cannot straddle a junction whose right side starts
with a character that is not in the pattern. -/
theorem hasSubstr_append_false_of_head {p x y : List Char}
    (hx : hasSubstr p x = false) (hy : hasSubstr p y = false)
    (hhead : ∀ c, y[0]? = some c → c ∉ p) :
    hasSubstr p (x ++ y) = false := by
  by_contra hc
  rw [Bool.not_eq_false, hasSubstr_iff] at hc
  obtain ⟨i, hi⟩ := hc
  have hg := occursAt_getElem hi
  by_cases h1 : i + p.length ≤ x.length
  · have hin : occursAt p x i :=
      occursAt_of_getElems p x i (fun j hj => by
        have := hg j hj
        rwa [List.getElem?_append_left (by omega)] at this)
    rw [hasSubstr_of_occursAt hin] at hx
    exact absurd hx (by simp)
  · by_cases h2 : x.length ≤ i
    · have hin : occursAt p y (i - x.length) :=
        occursAt_of_getElems p y (i - x.length) (fun j hj => by
          have := hg j hj
          rw [List.getElem?_append_right (by omega)] at this
          rwa [show i + j - x.length = i - x.length + j by omega] at this)
      rw [hasSubstr_of_occursAt hin] at hy
      exact absurd hy (by simp)
    · have hj : x.length - i < p.length := by omega
      have := hg (x.length - i) hj
      rw [show i + (x.length - i) = x.length by omega] at this
      rw [List.getElem?_append_right (le_refl _), Nat.sub_self] at this
      cases hy0 : y[0]? with
      | none =>
          rw [hy0] at this
          have := List.getElem?_eq_none_iff.mp this.symm
          omega
      | some c =>
          rw [hy0] at this
          exact hhead c hy0 (mem_of_getElem?_char this.symm)

theorem natVal_append_singleton (a : List Char) (c : Char) :
    natVal (a ++ [c]) = natVal a * 10 + (c.toNat - 48) := by
  unfold natVal
  rw [List.foldl_append]
  rfl

theorem natVal_natDigitsF :
    ∀ (fuel n : Nat), n < fuel → natVal (natDigitsF fuel n) = n := by
  intro fuel
  induction fuel with
  | zero => intro n h; omega
  | succ fuel ih =>
      intro n h
      unfold natDigitsF
      split
      · next hlt =>
          unfold natVal
          simp only [List.foldl_cons, List.foldl_nil]
          rw [char_toNat_ofNat (by omega)]
          omega
      · next hge =>
          rw [natVal_append_singleton, ih (n / 10) (by omega)]
          rw [char_toNat_ofNat (by omega)]
          omega

theorem natVal_natDigits (n : Nat) : natVal (natDigits n) = n :=
  natVal_natDigitsF (n + 1) n (by omega)

/-- Two digit runs each followed by an underscore: a prefix relation between
the combined strings forces the digit runs to be equal. -/
theorem digits_prefix_eq :
    ∀ (d1 d2 r1 r2 : List Char),
      (∀ c ∈ d1, isAsciiDigit c = true) → (∀ c ∈ d2, isAsciiDigit c = true) →
      (d1 ++ '_' :: r1) <+: (d2 ++ '_' :: r2) → d1 = d2 := by
  intro d1
  induction d1 with
  | nil =>
      intro d2 r1 r2 _ hd2 hpre
      cases d2 with
      | nil => rfl
      | cons c d2' =>
          exfalso
          simp only [List.nil_append, List.cons_append] at hpre
          have heq := (List.cons_prefix_cons.mp hpre).1
          have hc := hd2 c (by simp)
          rw [← heq] at hc
          exact absurd hc (by decide)
  | cons c d1' ih =>
      intro d2 r1 r2 hd1 hd2 hpre
      cases d2 with
      | nil =>
          exfalso
          simp only [List.cons_append, List.nil_append] at hpre
          have heq := (List.cons_prefix_cons.mp hpre).1
          have hc := hd1 c (by simp)
          rw [heq] at hc
          exact absurd hc (by decide)
      | cons c2 d2' =>
          simp only [List.cons_append] at hpre
          obtain ⟨heq, htail⟩ := List.cons_prefix_cons.mp hpre
          rw [heq, ih d2' r1 r2 (fun x hx => hd1 x (by simp [hx]))
            (fun x hx => hd2 x (by simp [hx])) htail]

/-- A placeholder that is a prefix of another placeholder (plus anything)
carries the same index. -/
theorem phStr_prefix_eq {k idx : Nat} {Z : List Char}
    (h : phStr k <+: phStr idx ++ Z) : k = idx := by
  unfold phStr at h
  rw [List.append_assoc, List.append_assoc, List.append_assoc] at h
  have h2 := (List.prefix_append_right_inj "___TAG".toList).mp h
  have h3 : natDigits k = natDigits idx := by
    have hsh : ("___".toList : List Char) = '_' :: "__".toList := by decide
    rw [hsh] at h2
    have h4 : natDigits idx ++ ('_' :: "__".toList ++ Z) =
        natDigits idx ++ '_' :: ("__".toList ++ Z) := by simp
    rw [h4] at h2
    exact digits_prefix_eq _ _ _ _ (natDigits_digits k) (natDigits_digits idx) h2
  have := congrArg natVal h3
  rwa [natVal_natDigits, natVal_natDigits] at this

/-- No placeholder occurrence can begin strictly inside a TAG-free prefix that
is followed by a placeholder: the 'T','A','G' letters would have to sit on the
next placeholder's leading underscores or inside the TAG-free prefix. -/
theorem phStr_no_occur_before {X Z : List Char} {k idx i : Nat}
    (hX : hasSubstr "TAG".toList X = false)
    (hocc : occursAt (phStr k) (X ++ (phStr idx ++ Z)) i) : X.length ≤ i := by
  by_contra hlt
  push_neg at hlt
  have hg := occursAt_getElem hocc
  have hplen := phStr_length k
  have hu : ∀ j, j < 3 → (X ++ (phStr idx ++ Z))[X.length + j]? = some '_' := by
    intro j hj
    rw [List.getElem?_append_right (by omega), Nat.add_sub_cancel_left]
    rw [List.getElem?_append_left (by
      have := phStr_length idx
      omega)]
    rw [phStr_head6 idx j (by omega)]
    have hdec : ∀ j, j < 3 → ("___TAG".toList)[j]? = some '_' := by decide
    exact hdec j hj
  by_cases h6 : i + 6 ≤ X.length
  · have hin : occursAt "TAG".toList X (i + 3) :=
      occursAt_of_getElems _ _ _ (fun j hj => by
        have hj3 : j < 3 := by
          have : ("TAG".toList).length = 3 := by decide
          omega
        have h1 := hg (3 + j) (by omega)
        rw [List.getElem?_append_left (by omega)] at h1
        rw [show i + (3 + j) = i + 3 + j by omega] at h1
        rw [h1, phStr_head6 k (3 + j) (by omega)]
        have hdec : ∀ j, j < 3 → ("___TAG".toList)[3 + j]? = ("TAG".toList)[j]? := by
          decide
        exact hdec j hj3)
    rw [hasSubstr_of_occursAt hin] at hX
    exact absurd hX (by simp)
  · rcases (by omega : X.length - i = 1 ∨ X.length - i = 2 ∨ X.length - i = 3 ∨
      X.length - i = 4 ∨ X.length - i = 5) with h | h | h | h | h
    · have h1 := hg 3 (by omega)
      rw [show i + 3 = X.length + 2 by omega, hu 2 (by omega),
        phStr_head6 k 3 (by omega)] at h1
      exact absurd h1 (by decide)
    · have h1 := hg 3 (by omega)
      rw [show i + 3 = X.length + 1 by omega, hu 1 (by omega),
        phStr_head6 k 3 (by omega)] at h1
      exact absurd h1 (by decide)
    · have h1 := hg 3 (by omega)
      rw [show i + 3 = X.length + 0 by omega, hu 0 (by omega),
        phStr_head6 k 3 (by omega)] at h1
      exact absurd h1 (by decide)
    · have h1 := hg 4 (by omega)
      rw [show i + 4 = X.length + 0 by omega, hu 0 (by omega),
        phStr_head6 k 4 (by omega)] at h1
      exact absurd h1 (by decide)
    · have h1 := hg 5 (by omega)
      rw [show i + 5 = X.length + 0 by omega, hu 0 (by omega),
        phStr_head6 k 5 (by omega)] at h1
      exact absurd h1 (by decide)

/-- No TAG occurrence within the first three positions of a processed text
whose literals and trail are TAG-free. -/
theorem no_tag_at_head :
    ∀ (ps : List (List Char × List Char)) (trail : List Char) (base r : Nat),
      (∀ p ∈ ps, hasSubstr "TAG".toList p.1 = false) →
      hasSubstr "TAG".toList trail = false →
      r ≤ 2 → ¬ occursAt "TAG".toList (asmPh base ps trail) r := by
  intro ps trail base r hlits htrail hr hocc
  cases ps with
  | nil =>
      simp only [asmPh] at hocc
      rw [hasSubstr_of_occursAt hocc] at htrail
      exact absurd htrail (by simp)
  | cons pr ps' =>
      obtain ⟨lit, tag⟩ := pr
      simp only [asmPh] at hocc
      rw [List.append_assoc] at hocc
      have hg := occursAt_getElem hocc
      have hlit := hlits (lit, tag) (by simp)
      have hlen3 : ("TAG".toList).length = 3 := by decide
      by_cases h1 : r + 3 ≤ lit.length
      · have hin : occursAt "TAG".toList lit r :=
          occursAt_of_getElems _ _ _ (fun j hj => by
            have hj3 : j < 3 := by omega
            have := hg j hj
            rwa [List.getElem?_append_left (by omega)] at this)
        rw [hasSubstr_of_occursAt hin] at hlit
        exact absurd hlit (by simp)
      · by_cases h2 : r < lit.length
        · have hph0 : (lit ++ (phStr (base + ps'.length) ++
              asmPh base ps' trail))[lit.length]? = some '_' := by
            rw [List.getElem?_append_right (le_refl _), Nat.sub_self]
            rw [List.getElem?_append_left (by
              have := phStr_length (base + ps'.length)
              omega)]
            rw [phStr_head6 _ 0 (by omega)]
            decide
          rcases (by omega : lit.length = r + 1 ∨ lit.length = r + 2) with h | h
          · have h4 := hg 1 (by omega)
            rw [show r + 1 = lit.length by omega, hph0] at h4
            exact absurd h4 (by decide)
          · have h4 := hg 2 (by omega)
            rw [show r + 2 = lit.length by omega, hph0] at h4
            exact absurd h4 (by decide)
        · have h0 := hg 0 (by omega)
          rw [Nat.add_zero] at h0
          rw [List.getElem?_append_right (by omega)] at h0
          rw [List.getElem?_append_left (by
            have := phStr_length (base + ps'.length)
            omega)] at h0
          rw [phStr_head6 _ (r - lit.length) (by omega)] at h0
          have hd : ∀ o, o < 3 → ¬ (("___TAG".toList)[o]? = ("TAG".toList)[0]?) := by
            decide
          exact hd (r - lit.length) (by omega) h0

/-- Any placeholder occurrence in a processed text with TAG-free literals and
trail carries an index below base + number of spans. -/
theorem phStr_occur_bound :
    ∀ (ps : List (List Char × List Char)) (trail : List Char) (base k i : Nat),
      (∀ p ∈ ps, hasSubstr "TAG".toList p.1 = false) →
      hasSubstr "TAG".toList trail = false →
      occursAt (phStr k) (asmPh base ps trail) i → k < base + ps.length := by
  intro ps
  induction ps with
  | nil =>
      intro trail base k i hlits htrail hocc
      exfalso
      simp only [asmPh] at hocc
      have hg := occursAt_getElem hocc
      have hplen := phStr_length k
      have hin : occursAt "TAG".toList trail (i + 3) :=
        occursAt_of_getElems _ _ _ (fun j hj => by
          have hj3 : j < 3 := by
            have : ("TAG".toList).length = 3 := by decide
            omega
          have h1 := hg (3 + j) (by omega)
          rw [show i + (3 + j) = i + 3 + j by omega] at h1
          rw [h1, phStr_head6 k (3 + j) (by omega)]
          have hdec : ∀ j, j < 3 → ("___TAG".toList)[3 + j]? = ("TAG".toList)[j]? := by
            decide
          exact hdec j hj3)
      rw [hasSubstr_of_occursAt hin] at htrail
      exact absurd htrail (by simp)
  | cons pr ps' ih =>
      intro trail base k i hlits htrail hocc
      obtain ⟨lit, tag⟩ := pr
      simp only [asmPh] at hocc
      rw [List.append_assoc] at hocc
      have hlitfree := hlits (lit, tag) (by simp)
      have hX : lit.length ≤ i := phStr_no_occur_before hlitfree hocc
      have hocc2 : occursAt (phStr k)
          (phStr (base + ps'.length) ++ asmPh base ps' trail) (i - lit.length) := by
        unfold occursAt at hocc ⊢
        rwa [show i = lit.length + (i - lit.length) by omega, List.drop_append] at hocc
      by_cases ho0 : i - lit.length = 0
      · rw [ho0] at hocc2
        unfold occursAt at hocc2
        rw [List.drop_zero] at hocc2
        have := phStr_prefix_eq hocc2
        simp only [List.length_cons]
        omega
      · by_cases hlen : (phStr (base + ps'.length)).length ≤ i - lit.length
        · have hocc3 : occursAt (phStr k) (asmPh base ps' trail)
              (i - lit.length - (phStr (base + ps'.length)).length) := by
            unfold occursAt at hocc2 ⊢
            rwa [show i - lit.length = (phStr (base + ps'.length)).length +
              (i - lit.length - (phStr (base + ps'.length)).length) by omega,
              List.drop_append] at hocc2
          have := ih trail base k _ (fun p hp => hlits p (by simp [hp])) htrail hocc3
          simp only [List.length_cons]
          omega
        · exfalso
          push_neg at hlen
          have hg2 := occursAt_getElem hocc2
          have hplen := phStr_length k
          have hplen2 := phStr_length (base + ps'.length)
          have h3 := hg2 3 (by omega)
          by_cases hin : i - lit.length + 3 < (phStr (base + ps'.length)).length
          · rw [List.getElem?_append_left hin] at h3
            rw [phStr_head6 k 3 (by omega)] at h3
            have hT : ("___TAG".toList)[3]? = some 'T' := by decide
            rw [hT] at h3
            have := phStr_T_only _ (i - lit.length + 3) h3
            omega
          · have hrle : i - lit.length + 3 - (phStr (base + ps'.length)).length ≤ 2 := by
              omega
            have hocc4 : occursAt "TAG".toList (asmPh base ps' trail)
                (i - lit.length + 3 - (phStr (base + ps'.length)).length) :=
              occursAt_of_getElems _ _ _ (fun j hj => by
                have hj3 : j < 3 := by
                  have : ("TAG".toList).length = 3 := by decide
                  omega
                have h4 := hg2 (3 + j) (by omega)
                rw [show i - lit.length + (3 + j) =
                  i - lit.length + 3 + j by omega] at h4
                rw [List.getElem?_append_right (by omega)] at h4
                rw [show i - lit.length + 3 + j - (phStr (base + ps'.length)).length =
                  (i - lit.length + 3 - (phStr (base + ps'.length)).length) + j
                  by omega] at h4
                rw [h4, phStr_head6 k (3 + j) (by omega)]
                have hdec : ∀ j, j < 3 →
                    ("___TAG".toList)[3 + j]? = ("TAG".toList)[j]? := by decide
                exact hdec j hj3)
            exact no_tag_at_head ps' trail base _
              (fun p hp => hlits p (by simp [hp])) htrail hrle hocc4

theorem tagKeyScan_phStr (n : Nat) : tagKeyScan (phStr n) = some n := by
  have h1 : phStr n = '_' :: ('_' :: ('_' :: ('T' :: ('A' :: ('G' ::
      (natDigits n ++ "___".toList)))))) := by
    unfold phStr
    rfl
  have hstep : ∀ (c : Char) (r : List Char),
      ("TAG".toList.isPrefixOf (c :: r)) = false →
      tagKeyScan (c :: r) = tagKeyScan r := by
    intro c r hc
    simp only [tagKeyScan]
    rw [if_neg]
    intro hand
    rw [hc] at hand
    exact absurd hand.1 (by simp)
  have hpre_ : ∀ r : List Char, ("TAG".toList.isPrefixOf ('_' :: r)) = false := by
    intro r
    simp [List.isPrefixOf]
  rw [h1, hstep _ _ (hpre_ _), hstep _ _ (hpre_ _), hstep _ _ (hpre_ _)]
  have hsh : ("___".toList : List Char) = '_' :: "__".toList := by decide
  have htw := takeWhile_digits_underscore (natDigits n) (natDigits_digits n)
    ("__".toList)
  simp only [tagKeyScan]
  rw [if_pos]
  · have hdr : (('T' :: ('A' :: ('G' :: (natDigits n ++ "___".toList)))).drop 3) =
        natDigits n ++ "___".toList := rfl
    rw [hdr, hsh, htw.1, natVal_natDigits]
  · constructor
    · simp [List.isPrefixOf]
    · have hdr : (('T' :: ('A' :: ('G' :: (natDigits n ++ "___".toList)))).drop 3) =
        natDigits n ++ "___".toList := rfl
      rw [hdr, hsh, htw.1]
      exact natDigits_ne_nil n

theorem tagSortKey_phStr (n : Nat) : tagSortKey (phStr n) = n := by
  unfold tagSortKey
  rw [tagKeyScan_phStr]
  rfl

theorem tmSpec_keys :
    ∀ (ps : List (List Char × List Char)) (base : Nat),
      (tmSpec base ps).map (fun e => tagSortKey e.1) =
        List.range' base ps.length := by
  intro ps
  induction ps with
  | nil => intro base; rfl
  | cons pr ps' ih =>
      intro base
      obtain ⟨l, t⟩ := pr
      simp only [tmSpec, List.map_append, ih, List.map_cons, List.map_nil,
        tagSortKey_phStr, List.length_cons]
      rw [List.range'_concat]
      simp

theorem foldl_insertDescBy_asc {α : Type} (key : α → Nat) :
    ∀ (l : List α) (b : Nat) (acc : List α),
      l.map key = List.range' b l.length →
      (∀ h t, acc = h :: t → key h < b) →
      l.foldl (fun acc x => insertDescBy key x acc) acc = l.reverse ++ acc := by
  intro l
  induction l with
  | nil => intro b acc _ _; simp
  | cons x l' ih =>
      intro b acc hmap hacc
      simp only [List.map_cons, List.length_cons, List.range'_succ] at hmap
      obtain ⟨hx, hl'⟩ := List.cons_eq_cons.mp hmap
      simp only [List.foldl_cons]
      have hins : insertDescBy key x acc = x :: acc := by
        cases acc with
        | nil => rfl
        | cons h t =>
            unfold insertDescBy
            rw [if_pos]
            rw [hx]
            exact hacc h t rfl
      rw [hins, ih (b + 1) (x :: acc) hl' (fun h t ht => by
        injection ht with h1 h2
        rw [← h1, hx]
        omega)]
      simp

theorem sortDescBy_eq_reverse {α : Type} (key : α → Nat) (l : List α) (b : Nat)
    (hmap : l.map key = List.range' b l.length) :
    sortDescBy key l = l.reverse := by
  unfold sortDescBy
  rw [foldl_insertDescBy_asc key l b [] hmap (fun h t ht => by
    exact absurd ht (by simp))]
  simp

theorem consLit_tags (c : Char) (d : List (List Char × List Char) × List Char) :
    ∀ p ∈ (consLit c d).1, ∃ q ∈ d.1, p.2 = q.2 := by
  obtain ⟨ps, trail⟩ := d
  cases ps with
  | nil => intro p hp; simp [consLit] at hp
  | cons q qs =>
      obtain ⟨lit, tag⟩ := q
      intro p hp
      simp only [consLit] at hp
      rcases List.mem_cons.mp hp with h | h
      · exact ⟨(lit, tag), by simp, by rw [h]⟩
      · exact ⟨p, by simp [h], rfl⟩

theorem scanDecompF_tag_shape :
    ∀ (fuel : Nat) (s : List Char), ∀ p ∈ (scanDecompF fuel s).1,
      ∃ content, p.2 = '〈' :: (content ++ ['〉']) := by
  intro fuel
  induction fuel with
  | zero =>
      intro s p hp
      cases s <;> simp [scanDecompF] at hp
  | succ fuel ih =>
      intro s p hp
      cases s with
      | nil => simp [scanDecompF] at hp
      | cons c rest =>
          simp only [scanDecompF] at hp
          split at hp
          · split at hp
            · next content after _ =>
                split at hp
                · obtain ⟨q, hq, he⟩ := consLit_tags c _ p hp
                  rw [he]
                  exact ih rest q hq
                · rcases List.mem_cons.mp hp with h | h
                  · exact ⟨content, by rw [h]⟩
                  · exact ih after p h
            · obtain ⟨q, hq, he⟩ := consLit_tags c _ p hp
              rw [he]
              exact ih rest q hq
          · obtain ⟨q, hq, he⟩ := consLit_tags c _ p hp
            rw [he]
            exact ih rest q hq

theorem scanDecomp_tag_shape (s : List Char) :
    ∀ p ∈ (scanDecomp s).1, ∃ content, p.2 = '〈' :: (content ++ ['〉']) :=
  scanDecompF_tag_shape s.length s

theorem asmRaw_parts_free {q : List Char} :
    ∀ (ps : List (List Char × List Char)) (trail : List Char),
      hasSubstr q (asmRaw ps trail) = false →
      (∀ p ∈ ps, hasSubstr q p.1 = false ∧ hasSubstr q p.2 = false) ∧
        hasSubstr q trail = false := by
  intro ps
  induction ps with
  | nil => intro trail h; exact ⟨by simp, h⟩
  | cons pr ps' ih =>
      intro trail h
      obtain ⟨lit, tag⟩ := pr
      simp only [asmRaw] at h
      have hlit : hasSubstr q lit = false := by
        by_contra hs
        rw [Bool.not_eq_false] at hs
        have := hasSubstr_mono_left (y := asmRaw ps' trail)
          (hasSubstr_mono_left (y := tag) hs)
        rw [this] at h
        exact absurd h (by simp)
      have htag : hasSubstr q tag = false := by
        by_contra hs
        rw [Bool.not_eq_false] at hs
        have := hasSubstr_mono_left (y := asmRaw ps' trail)
          (hasSubstr_mono_right (x := lit) hs)
        rw [this] at h
        exact absurd h (by simp)
      have hrest : hasSubstr q (asmRaw ps' trail) = false := by
        by_contra hs
        rw [Bool.not_eq_false] at hs
        have := hasSubstr_mono_right (x := lit ++ tag) hs
        rw [this] at h
        exact absurd h (by simp)
      obtain ⟨hps', htrail⟩ := ih trail hrest
      refine ⟨?_, htrail⟩
      intro p hp
      rcases List.mem_cons.mp hp with h1 | h1
      · rw [h1]
        exact ⟨hlit, htag⟩
      · exact hps' p h1

theorem tmSpec_length :
    ∀ (ps : List (List Char × List Char)) (base : Nat),
      (tmSpec base ps).length = ps.length := by
  intro ps
  induction ps with
  | nil => intro base; rfl
  | cons pr ps' ih =>
      intro base
      obtain ⟨l, t⟩ := pr
      simp [tmSpec, ih]

/-- The core restoration loop: with TAG-free spans and trail, processing the
sorted tag map left placeholder first turns the processed text back into a
string that contains every original span, working left to right through an
accumulated TAG-free prefix. -/
theorem restore_loop :
    ∀ (ps : List (List Char × List Char)) (A trail : List Char) (base : Nat),
      (∀ p ∈ ps, hasSubstr "TAG".toList p.1 = false) →
      (∀ p ∈ ps, hasSubstr "TAG".toList p.2 = false) →
      (∀ p ∈ ps, ∃ content, p.2 = '〈' :: (content ++ ['〉'])) →
      hasSubstr "TAG".toList trail = false →
      hasSubstr "TAG".toList A = false →
      (∀ c, A.getLast? = some c → c = '〉' ∨ c = ' ') →
      ∃ A', ((tmSpec base ps).reverse).foldl restoreEntry (A ++ asmPh base ps trail) =
          A' ++ trail ∧
        (∀ p ∈ ps, hasSubstr p.2 A' = true) ∧
        (∀ q, hasSubstr q A = true → hasSubstr q A' = true) := by
  intro ps
  induction ps with
  | nil =>
      intro A trail base _ _ _ _ _ _
      exact ⟨A, by simp [tmSpec, asmPh], by simp, fun q hq => hq⟩
  | cons pr ps' ih =>
      intro A trail base hlits htags hshapes htrail hA hAlast
      obtain ⟨lit, tag⟩ := pr
      have hrev : (tmSpec base ((lit, tag) :: ps')).reverse =
          (phStr (base + ps'.length), tag) :: (tmSpec base ps').reverse := by
        simp [tmSpec]
      rw [hrev]
      simp only [List.foldl_cons]
      have hasm : A ++ asmPh base ((lit, tag) :: ps') trail =
          (A ++ lit) ++ phStr (base + ps'.length) ++ asmPh base ps' trail := by
        simp [asmPh]
      rw [hasm]
      have hlitfree := hlits (lit, tag) (by simp)
      have htagfree := htags (lit, tag) (by simp)
      obtain ⟨content, hcont0⟩ := hshapes (lit, tag) (by simp)
      have hcont : tag = '〈' :: (content ++ ['〉']) := hcont0
      have hXfree : hasSubstr "TAG".toList (A ++ lit) = false :=
        hasSubstr_append_false_of_last hA hlitfree (fun c hc => by
          rcases hAlast c hc with h | h <;> (rw [h]; decide))
      have hocc0 : hasSubstr (phStr (base + ps'.length))
          ((A ++ lit) ++ phStr (base + ps'.length) ++ asmPh base ps' trail) = true := by
        rw [hasSubstr_iff]
        refine ⟨(A ++ lit).length, ?_⟩
        rw [List.append_assoc, List.drop_left]
        exact List.prefix_append _ _
      have hentry : restoreEntry
          ((A ++ lit) ++ phStr (base + ps'.length) ++ asmPh base ps' trail)
          (phStr (base + ps'.length), tag) =
          replaceExactWithSpacing
            ((A ++ lit) ++ phStr (base + ps'.length) ++ asmPh base ps' trail)
            (phStr (base + ps'.length)) tag := by
        unfold restoreEntry
        simp only [parseTagToken_phStr]
        rw [if_pos hocc0]
      have hsingle : replaceExactWithSpacing
          ((A ++ lit) ++ phStr (base + ps'.length) ++ asmPh base ps' trail)
          (phStr (base + ps'.length)) tag =
          (A ++ lit) ++
            ((if needsSpaceBefore ((A ++ lit) ++ phStr (base + ps'.length) ++
                asmPh base ps' trail) (A ++ lit).length then [' '] else []) ++
              (tag ++
              (if needsSpaceAfter ((A ++ lit) ++ phStr (base + ps'.length) ++
                asmPh base ps' trail) ((A ++ lit).length +
                  (phStr (base + ps'.length)).length) then [' '] else []))) ++
            asmPh base ps' trail := by
        unfold replaceExactWithSpacing
        refine rewriteByMatcher_single (phStr_ne_nil _) ?_ ?_ ?_
        · intro i hi
          cases hpre : (phStr (base + ps'.length)).isPrefixOf
              (((A ++ lit) ++ phStr (base + ps'.length) ++
                asmPh base ps' trail).drop i) with
          | false => simp [hpre]
          | true =>
              exfalso
              have hoc : occursAt (phStr (base + ps'.length))
                  ((A ++ lit) ++ (phStr (base + ps'.length) ++
                    asmPh base ps' trail)) i := by
                rw [List.isPrefixOf_iff_prefix] at hpre
                unfold occursAt
                rwa [← List.append_assoc]
              have := phStr_no_occur_before hXfree hoc
              omega
        · have hpre : (phStr (base + ps'.length)).isPrefixOf
              (phStr (base + ps'.length) ++ asmPh base ps' trail) = true := by
            rw [List.isPrefixOf_iff_prefix]
            exact List.prefix_append _ _
          simp only [hpre, if_true, Nat.zero_add]
          simp [List.append_assoc]
        · intro i hi
          cases hpre : (phStr (base + ps'.length)).isPrefixOf
              ((asmPh base ps' trail).drop i) with
          | false => simp [hpre]
          | true =>
              exfalso
              have hoc : occursAt (phStr (base + ps'.length))
                  (asmPh base ps' trail) i := by
                rw [List.isPrefixOf_iff_prefix] at hpre
                exact hpre
              have := phStr_occur_bound ps' trail base (base + ps'.length) i
                (fun p hp => hlits p (by simp [hp])) htrail hoc
              omega
      rw [hentry, hsingle]
      set sp1 := (if needsSpaceBefore ((A ++ lit) ++ phStr (base + ps'.length) ++
        asmPh base ps' trail) (A ++ lit).length then [' '] else []) with hsp1def
      set sp2 := (if needsSpaceAfter ((A ++ lit) ++ phStr (base + ps'.length) ++
        asmPh base ps' trail) ((A ++ lit).length +
          (phStr (base + ps'.length)).length) then [' '] else []) with hsp2def
      have hsp1 : sp1 = [] ∨ sp1 = [' '] := by
        rw [hsp1def]
        split <;> simp
      have hsp2 : sp2 = [] ∨ sp2 = [' '] := by
        rw [hsp2def]
        split <;> simp
      clear hsp1def hsp2def
      have hsp1free : hasSubstr "TAG".toList sp1 = false := by
        rcases hsp1 with h | h <;> rw [h] <;> decide
      have hsp2free : hasSubstr "TAG".toList sp2 = false := by
        rcases hsp2 with h | h <;> rw [h] <;> decide
      have htaglast : ∀ c, tag.getLast? = some c → c = '〉' := by
        intro c hc
        rw [hcont] at hc
        rw [show ('〈' :: (content ++ ['〉'])) = ('〈' :: content) ++ ['〉'] by simp,
          List.getLast?_concat] at hc
        injection hc with hc
        exact hc.symm
      have htag_sp2 : hasSubstr "TAG".toList (tag ++ sp2) = false :=
        hasSubstr_append_false_of_last htagfree hsp2free (fun c hc => by
          rw [htaglast c hc]
          decide)
      have hsp1_rest : hasSubstr "TAG".toList (sp1 ++ (tag ++ sp2)) = false := by
        rcases hsp1 with h | h
        · rw [h]
          simpa using htag_sp2
        · rw [h]
          exact hasSubstr_append_false_of_last (by decide) htag_sp2 (fun c hc => by
            simp at hc
            rw [← hc]
            decide)
      have hlit_rest : hasSubstr "TAG".toList (lit ++ (sp1 ++ (tag ++ sp2))) = false :=
        hasSubstr_append_false_of_head hlitfree hsp1_rest (fun c hc => by
          rcases hsp1 with h | h
          · rw [h] at hc
            simp only [List.nil_append] at hc
            rw [hcont] at hc
            simp only [List.cons_append, List.getElem?_cons_zero,
              Option.some.injEq] at hc
            rw [← hc]
            decide
          · rw [h] at hc
            simp only [List.cons_append, List.getElem?_cons_zero,
              Option.some.injEq] at hc
            rw [← hc]
            decide)
      have hA2free : hasSubstr "TAG".toList
          (A ++ (lit ++ (sp1 ++ (tag ++ sp2)))) = false :=
        hasSubstr_append_false_of_last hA hlit_rest (fun c hc => by
          rcases hAlast c hc with h | h <;> (rw [h]; decide))
      have hA2last : ∀ c, (A ++ (lit ++ (sp1 ++ (tag ++ sp2)))).getLast? = some c →
          c = '〉' ∨ c = ' ' := by
        intro c hc
        rcases hsp2 with h | h
        · rw [h] at hc
          rw [hcont] at hc
          rw [show A ++ (lit ++ (sp1 ++ ('〈' :: (content ++ ['〉']) ++ []))) =
            (A ++ (lit ++ (sp1 ++ ('〈' :: content)))) ++ ['〉'] by simp,
            List.getLast?_concat] at hc
          injection hc with hc
          left
          exact hc.symm
        · rw [h] at hc
          rw [show A ++ (lit ++ (sp1 ++ (tag ++ [' ']))) =
            (A ++ (lit ++ (sp1 ++ tag))) ++ [' '] by simp,
            List.getLast?_concat] at hc
          injection hc with hc
          right
          exact hc.symm
      obtain ⟨A', hA'eq, hA'tags, hA'mono⟩ :=
        ih (A ++ (lit ++ (sp1 ++ (tag ++ sp2)))) trail base
          (fun p hp => hlits p (by simp [hp]))
          (fun p hp => htags p (by simp [hp]))
          (fun p hp => hshapes p (by simp [hp]))
          htrail hA2free hA2last
      refine ⟨A', ?_, ?_, ?_⟩
      · rw [show (A ++ lit) ++ (sp1 ++ (tag ++ sp2)) ++ asmPh base ps' trail =
          (A ++ (lit ++ (sp1 ++ (tag ++ sp2)))) ++ asmPh base ps' trail by simp]
        exact hA'eq
      · intro p hp
        rcases List.mem_cons.mp hp with h1 | h1
        · have htagin : hasSubstr tag (A ++ (lit ++ (sp1 ++ (tag ++ sp2)))) = true := by
            refine hasSubstr_mono_right (hasSubstr_mono_right
              (hasSubstr_mono_right (hasSubstr_mono_left ?_)))
            exact hasSubstr_of_occursAt (i := 0) (List.prefix_refl _)
          rw [h1]
          exact hA'mono tag htagin
        · exact hA'tags p h1
      · intro q hq
        exact hA'mono q (hasSubstr_mono_left hq)

/-- C1, amended: for every input whose fullwidth bracket spans are balanced
AND which does not already contain the substring "TAG" (so no span or literal
can collide with the synthetic ___TAG<N>___ placeholders — the counterexample
shows the claim fails without this), extracting with extractAndPreserveTags
and restoring with restoreTags under an identity translation stage yields a
string in which every original bracket span, brackets included, appears
verbatim. -/
theorem C1_roundtrip_amended (s : List Char)
    (hbal : balancedTags s = true)
    (hfree : hasSubstr "TAG".toList s = false) :
    ∀ p ∈ (scanDecomp s).1, hasSubstr p.2 (roundTrip s) = true := by
  intro p hp
  have hjoin : asmRaw (scanDecomp s).1 (scanDecomp s).2 = s :=
    scanDecompF_join s.length s (le_refl _)
  obtain ⟨hps, htrail⟩ :=
    asmRaw_parts_free (scanDecomp s).1 (scanDecomp s).2 (by rwa [hjoin])
  unfold roundTrip
  rw [extract_spec]
  dsimp only
  unfold restoreTags
  rw [sortDescBy_eq_reverse (fun e => tagSortKey e.1) (tmSpec 0 (scanDecomp s).1) 0
    (by rw [tmSpec_keys, tmSpec_length])]
  obtain ⟨A', heq, htags, _⟩ := restore_loop (scanDecomp s).1 [] (scanDecomp s).2 0
    (fun q hq => (hps q hq).1) (fun q hq => (hps q hq).2)
    (scanDecomp_tag_shape s) htrail (by decide) (fun c hc => by simp at hc)
  simp only [List.nil_append] at heq
  rw [heq]
  exact hasSubstr_mono_left (htags p hp)

/-- Witness for the amended C1 on 〈a〉x〈bc〉: the input is balanced and
TAG-free, and both spans appear verbatim after the identity round trip. -/
theorem C1_roundtrip_amended_witness :
    balancedTags "〈a〉x〈bc〉".toList = true ∧
    hasSubstr "TAG".toList "〈a〉x〈bc〉".toList = false ∧
    hasSubstr "〈a〉".toList (roundTrip "〈a〉x〈bc〉".toList) = true ∧
    hasSubstr "〈bc〉".toList (roundTrip "〈a〉x〈bc〉".toList) = true := by
  refine ⟨by decide, by decide, ?_, ?_⟩
  · exact C1_roundtrip_amended "〈a〉x〈bc〉".toList (by decide) (by decide)
      (([] : List Char), "〈a〉".toList) (by decide)
  · exact C1_roundtrip_amended "〈a〉x〈bc〉".toList (by decide) (by decide)
      ("x".toList, "〈bc〉".toList) (by decide)

end MuvLuv
